import Mathlib

/-!
# Elastic network bonds from a cell list

A shallow embedding of `elastic_network` (`src/elastic_network.h`) and a
verification of its bond list.

Conventions of the embedding.

* There are two embeddings of the function.  `elastic_network` takes
  `float`/`double` values as exact rationals (`ℚ`), without rounding, and gives
  the stores of line 167 beyond `rij[dim]` no effect.  `elastic_networkF`
  rounds every `float` operation to binary32 and every `double` operation to
  binary64 (round to nearest, ties to even; overflow and NaN are not
  represented), and a run that stores beyond `rij[dim]` is `none`.  Its
  definitions carry the suffix `F` and share the integer part (reading loop,
  cell index, buckets, stencil) with the first.
* `int` values are unbounded integers; `int` overflow is not modelled.
* C arrays are total functions from the index to the value; an access whose
  index the code does not keep in range by construction (`hlist[cellidx]`) is
  checked, and a run that would leave the array is `none`.
* The particle count `N` is a natural number: the path `N < 0`, which reads the
  count from the first line of the file, is outside the embedding.
* The position file is the list of its lines, each line being the list of the
  numbers `sscanf` can parse from its start; `none` is the `NULL` file pointer.
* The code prints `r = sqrt(r2)`.  A bond record keeps the exact `r2`; the
  printed distance is its real square root (`Bond.r`).  In `elastic_networkF`
  the record keeps the `double` `r2` and the printed distance is `sqrt64 r2`.
-/

namespace ElasticNetwork

/-- One output row `i j K r0` (line 181).  The field `r2` is the squared
distance of line 176; the printed `r0` is `sqrt r2`. -/
structure Bond where
  i : Int
  j : Int
  K : ℚ
  r2 : ℚ
deriving DecidableEq

/-- The distance printed in the fourth column: `r = sqrt(r2)` (line 177). -/
noncomputable def Bond.r (b : Bond) : ℝ := Real.sqrt (b.r2 : ℝ)

/-- What a run leaves behind: the returned `int` and the rows written to
`output`, in the order written. -/
structure Result where
  ret : Int
  out : List Bond
deriving DecidableEq

/-- Lines 36 and 52-56: `periodicL[k] = 1` exactly for the axes `k < dim` whose
supplied length is positive. -/
def periodicInit (dim : Nat) (L : Nat → ℚ) (k : Nat) : Bool :=
  decide (k < dim ∧ 0 < L k)

/-- State of the reading loop (lines 58-85): the particle counter `i`, the
array `pos` in row-major layout (`pos[i][k]` is entry `i * dim + k`), and the
box lengths `L`. -/
structure ReadState where
  i : Nat
  pos : Nat → ℚ
  L : Nat → ℚ

/-- Entry `pos[i][k]` of the row-major array `float pos[N][dim]`. -/
def posAt (dim : Nat) (pos : Nat → ℚ) (i k : Nat) : ℚ := pos (i * dim + k)

/-- Lines 61-70: `sscanf` stores the fields it parses, at most `dim` of them,
in `pos[i][0], pos[i][1], ...`. -/
def storeRow (dim i : Nat) (line : List ℚ) (pos : Nat → ℚ) : Nat → ℚ :=
  fun a =>
    if i * dim ≤ a ∧ a < i * dim + min line.length dim then line.getD (a - i * dim) 0
    else pos a

/-- Lines 77-81: on every open axis, `if(fabs(pos[i][k]) > L[k]) L[k] = 2*fabs(pos[i][k])`. -/
def growBox (dim i : Nat) (periodicL : Nat → Bool) (pos : Nat → ℚ) (L : Nat → ℚ) : Nat → ℚ :=
  fun k =>
    if k < dim ∧ periodicL k = false ∧ L k < |posAt dim pos i k| then 2 * |posAt dim pos i k|
    else L k

/-- Lines 59-85: the loop over the lines of the position file.  `none` is the
`return -1` of the `default:` branch (invalid dimensionality), taken when a
line has been read; `some st` is the state when the loop is left, at the end of
the file or by `break`. -/
def readLoop (N dim : Nat) (periodicL : Nat → Bool) : List (List ℚ) → ReadState → Option ReadState
  | [], st => some st
  | line :: rest, st =>
    if dim = 1 ∨ dim = 2 ∨ dim = 3 then
      let pos1 := storeRow dim st.i line st.pos
      if min line.length dim = dim then
        let L1 := growBox dim st.i periodicL pos1 st.L
        if N ≤ st.i + 1 then some ⟨st.i + 1, pos1, L1⟩
        else readLoop N dim periodicL rest ⟨st.i + 1, pos1, L1⟩
      else readLoop N dim periodicL rest ⟨st.i, pos1, st.L⟩
    else none

/-- Lines 87-93: `if(L[k] < 3*Rc) L[k] = 3*Rc` on every axis. -/
def enforceMin (dim : Nat) (Rc : ℚ) (L : Nat → ℚ) : Nat → ℚ :=
  fun k => if k < dim ∧ L k < 3 * Rc then 3 * Rc else L k

/-- Line 103: `n[k] = (int) floorf(L[k]/Rc)`. -/
def cellCount (Rc : ℚ) (L : Nat → ℚ) (k : Nat) : Int := ⌊L k / Rc⌋

/-- Line 104: `cellsize[k] = L[k]/((float) n[k])`.  When `n[k] = 0` the
quotient is 0 here (infinite or NaN in C); then `ncells = 0` and the first
`hlist` access of the run is out of range, so no result depends on it. -/
def cellSize (Rc : ℚ) (L : Nat → ℚ) (k : Nat) : ℚ := L k / ((cellCount Rc L k : Int) : ℚ)

/-- Line 105: `ncells *= n[k]` for `k = 0 .. dim-1`, starting from 1. -/
def ncellsOf (n : Nat → Int) : Nat → Int
  | 0 => 1
  | k + 1 => ncellsOf n k * n k

/-- Lines 116 and 138: `(int) floorf((pos[i][k] + .5*L[k])/cellsize[k])`. -/
def cellCoord (dim : Nat) (L cellsize : Nat → ℚ) (pos : Nat → ℚ) (i k : Nat) : Int :=
  ⌊(posAt dim pos i k + (1 / 2) * L k) / cellsize k⌋

/-- Lines 116-117: the builder's cell coordinate, with
`if(cellcoord[k] == n[k]) cellcoord[k] = 0`. -/
def cellCoordBuild (dim : Nat) (n : Nat → Int) (L cellsize : Nat → ℚ) (pos : Nat → ℚ)
    (i k : Nat) : Int :=
  if cellCoord dim L cellsize pos i k = n k then 0 else cellCoord dim L cellsize pos i k

/-- Lines 124-125 and 156-157: `for(l = k; l > 0; l--) tmpidx *= n[l - 1]`. -/
def mulDown (n : Nat → Int) : Nat → Int → Int
  | 0, t => t
  | l + 1, t => mulDown n l (t * n l)

/-- Lines 122-127 and 154-159: `for(k = dim; k > 0; k--)` adding to `cellidx`
the coordinate of axis `k - 1` times `n[k-2] * ... * n[0]`. -/
def cellIndexFrom (n c : Nat → Int) : Nat → Int → Int
  | 0, acc => acc
  | k + 1, acc => cellIndexFrom n c k (acc + mulDown n k (c k))

/-- Lines 121-127: the flattened cell index of the coordinates `c`. -/
def cellIndex (dim : Nat) (n c : Nat → Int) : Int := cellIndexFrom n c dim 0

/-- The head list `hlist` (indexed by cell) and the linked list `llist`
(indexed by particle). -/
structure Buckets where
  hlist : Int → Int
  llist : Int → Int

/-- Lines 110 and 44: every head is `-1`; `llist` is uninitialised in C (each
entry is written at line 130 before any read), here 0. -/
def emptyBuckets : Buckets := ⟨fun _ => -1, fun _ => 0⟩

/-- Lines 113-132, for the particles of the list in order: `cellOf i` is the
flattened index of particle `i`; `llist[i] = hlist[cellidx]; hlist[cellidx] = i`.
`none` when `cellidx` is not an index of `int hlist[ncells]`. -/
def buildLoop (cellOf : Nat → Int) (ncells : Int) : List Nat → Buckets → Option Buckets
  | [], b => some b
  | i :: rest, b =>
    if 0 ≤ cellOf i ∧ cellOf i < ncells then
      buildLoop cellOf ncells rest
        ⟨Function.update b.hlist (cellOf i) (i : Int), Function.update b.llist (i : Int) (b.hlist (cellOf i))⟩
    else none

/-- The counter `nm[0], nm[1], nm[2]` of line 39. -/
structure Nm where
  nm0 : Int
  nm1 : Int
  nm2 : Int
deriving DecidableEq

/-- Entry `nm[k]`. -/
def Nm.get (nm : Nm) (k : Nat) : Int :=
  match k with
  | 0 => nm.nm0
  | 1 => nm.nm1
  | _ => nm.nm2

/-- Line 141: `nm[0] = nm[1] = nm[2] = -1`. -/
def nmStart : Nm := ⟨-1, -1, -1⟩

/-- Lines 189-191: `nm[0]++; if(nm[0] > 1) {nm[0] = -1; nm[1]++;}
if(nm[1] > 1) {nm[1] = -1; nm[2]++;}`. -/
def nmNext (nm : Nm) : Nm :=
  let a : Nm := ⟨nm.nm0 + 1, nm.nm1, nm.nm2⟩
  let b : Nm := if a.nm0 > 1 then ⟨-1, a.nm1 + 1, a.nm2⟩ else a
  if b.nm1 > 1 then ⟨b.nm0, -1, b.nm2 + 1⟩ else b

/-- Lines 144-150: the neighbour cell coordinate `cellcoord[k] + nm[k]`, then
`if(< 0) += n[k]; if(>= n[k]) -= n[k]`, on every axis. -/
def neighbourCoord (n : Nat → Int) (c : Nat → Int) (nm : Nm) (k : Nat) : Int :=
  let x := c k + nm.get k
  let y := if x < 0 then x + n k else x
  if y ≥ n k then y - n k else y

/-- Line 167: `for(k = 0; k < 3; k++) rij[k] = pos[j][k] - pos[i][k]`.  The
loop bound is 3 whatever `dim` is; entries `k ≥ 3` are not touched (0 here). -/
def displacement (dim : Nat) (pos : Nat → ℚ) (i j : Nat) (k : Nat) : ℚ :=
  if k < 3 then posAt dim pos j k - posAt dim pos i k else 0

/-- Lines 170-173: `rij[k] -= floorf(rij[k]/L[k] + .5)*L[k]` on the periodic
axes `k < dim`. -/
def minimumImage (dim : Nat) (periodicL : Nat → Bool) (L : Nat → ℚ) (rij : Nat → ℚ) (k : Nat) : ℚ :=
  if k < dim ∧ periodicL k = true then rij k - (⌊rij k / L k + 1 / 2⌋ : Int) * L k else rij k

/-- Line 176: `r2 = 0; for(k = 0; k < dim; k++) r2 += rij[k]*rij[k]`. -/
def sumSquares (rij : Nat → ℚ) : Nat → ℚ
  | 0 => 0
  | k + 1 => sumSquares rij k + rij k * rij k

/-- Lines 177 and 180: `r = sqrt(r2); if(r <= Rc)`.  For `r2 ≥ 0` the test
`sqrt r2 ≤ Rc` is `0 ≤ Rc ∧ r2 ≤ Rc²` (see `withinCutoff_iff_sqrt`). -/
def withinCutoff (Rc r2 : ℚ) : Bool := decide (0 ≤ Rc ∧ r2 ≤ Rc * Rc)

/-- The output stream and the counter `nbonds`. -/
structure Emit where
  out : List Bond
  nbonds : Int

/-- The fixed data of the enumeration phase. -/
structure Grid where
  N : Nat
  dim : Nat
  Rc : ℚ
  K : ℚ
  offset : Int
  periodicL : Nat → Bool
  L : Nat → ℚ
  pos : Nat → ℚ
  n : Nat → Int
  cellsize : Nat → ℚ
  ncells : Int

/-- Lines 166-176: the squared distance computed for the pair `i`, `j`. -/
def pairDist2 (g : Grid) (i j : Nat) : ℚ :=
  sumSquares (minimumImage g.dim g.periodicL g.L (displacement g.dim g.pos i j)) g.dim

/-- Lines 180-183: `if(r <= Rc) { fprintf(...); nbonds++; }`. -/
def emitBond (g : Grid) (i j : Nat) (st : Emit) : Emit :=
  if withinCutoff g.Rc (pairDist2 g i j) = true then
    ⟨st.out ++ [⟨g.offset + i, g.offset + j, g.K, pairDist2 g i j⟩], st.nbonds + 1⟩
  else st

/-- Lines 163-186: `while(j >= 0)` along `llist`.  The C loop has no bound; the
first argument is fuel, and `none` means the fuel ran out. -/
def walkChain (g : Grid) (llist : Int → Int) (i : Nat) : Nat → Int → Emit → Option Emit
  | 0, _, _ => none
  | fuel + 1, j, st =>
    if j < 0 then some st
    else if j ≥ (i : Int) then walkChain g llist i fuel (llist j) st
    else walkChain g llist i fuel (llist j) (emitBond g i j.toNat st)

/-- Lines 137-139 and 144-159: the flattened index of the neighbour cell of
particle `i` at the offset `nm`. -/
def neighbourIndex (g : Grid) (i : Nat) (nm : Nm) : Int :=
  cellIndex g.dim g.n (neighbourCoord g.n (cellCoord g.dim g.L g.cellsize g.pos i) nm)

/-- Lines 142-192: `for(m = 0; m < pow(3,dim); m++)`; the first argument is the
number of iterations left.  `none` when the neighbour's `cellidx` is not an
index of `hlist`, or when a chain walk does not end. -/
def neighbourLoop (g : Grid) (b : Buckets) (i : Nat) : Nat → Nm → Emit → Option Emit
  | 0, _, st => some st
  | m + 1, nm, st =>
    if 0 ≤ neighbourIndex g i nm ∧ neighbourIndex g i nm < g.ncells then
      match walkChain g b.llist i (g.N + 1) (b.hlist (neighbourIndex g i nm)) st with
      | none => none
      | some st1 => neighbourLoop g b i m (nmNext nm) st1
    else none

/-- Lines 135-193: `for(i = 0; i < N; i++)`, for the particles of the list. -/
def particleLoop (g : Grid) (b : Buckets) : List Nat → Emit → Option Emit
  | [], st => some st
  | i :: rest, st =>
    match neighbourLoop g b i (3 ^ g.dim) nmStart st with
    | none => none
    | some st1 => particleLoop g b rest st1

/-- The state with which the reading loop starts: `i = 0`, `pos`
uninitialised (0 here), `L` as supplied. -/
def readStart (L : Nat → ℚ) : ReadState := ⟨0, fun _ => 0, L⟩

/-- Lines 101-106 and the data the later phases use, from the state `st` the
reading loop ended in. -/
def gridOf (N : Nat) (Rc K : ℚ) (L : Nat → ℚ) (dim : Nat) (offset : Int) (st : ReadState) : Grid :=
  let L1 := enforceMin dim Rc st.L
  { N := N, dim := dim, Rc := Rc, K := K, offset := offset,
    periodicL := periodicInit dim L, L := L1, pos := st.pos,
    n := cellCount Rc L1, cellsize := cellSize Rc L1,
    ncells := ncellsOf (cellCount Rc L1) dim }

/-- The builder's flattened cell index of particle `i` (lines 115-127). -/
def cellOfBuild (g : Grid) (i : Nat) : Int :=
  cellIndex g.dim g.n (cellCoordBuild g.dim g.n g.L g.cellsize g.pos i)

/-- The function `elastic_network` of `src/elastic_network.h`.

`some ⟨-1, []⟩` is a `return -1`.  `none` is a run with undefined behaviour:
`Rc = 0` at line 103 (the quotient is infinite or NaN and is converted to
`int`), an `hlist` index outside `[0, ncells)`, or a chain walk that does not
end. -/
def elastic_network (N : Nat) (Rc K : ℚ) (L : Nat → ℚ) (positions : Option (List (List ℚ)))
    (dim : Nat) (offset : Int) : Option Result :=
  match positions with
  | none => some ⟨-1, []⟩
  | some lines =>
    match readLoop N dim (periodicInit dim L) lines (readStart L) with
    | none => some ⟨-1, []⟩
    | some st =>
      if st.i < N then some ⟨-1, []⟩
      else if 0 < dim ∧ Rc = 0 then none
      else
        let g := gridOf N Rc K L dim offset st
        match buildLoop (cellOfBuild g) g.ncells (List.range N) emptyBuckets with
        | none => none
        | some b =>
          match particleLoop g b (List.range N) ⟨[], 0⟩ with
          | none => none
          | some e => some ⟨e.nbonds, e.out⟩

/-- A vector given by its first entries, 0 beyond them. -/
def vec (l : List ℚ) : Nat → ℚ := fun k => l.getD k 0



/-! ### Definitions used to state the properties -/

/-- The state in which the reading loop of a run ends (`none`: the run left
through the `default:` branch). -/
def readEnd (N dim : Nat) (L : Nat → ℚ) (lines : List (List ℚ)) : Option ReadState :=
  readLoop N dim (periodicInit dim L) lines (readStart L)

/-- A row from which `sscanf` parses `dim` numbers (`nread == dim`, line 75). -/
def validRow (dim : Nat) (line : List ℚ) : Bool := decide (min line.length dim = dim)

/-- The product `n[0] * ... * n[k-1]` weighted sum of the coordinates: the
closed form of `cellIndex`. -/
def flatIndex (n c : Nat → Int) : Nat → Int
  | 0 => 0
  | k + 1 => flatIndex n c k + c k * ncellsOf n k

/-- The chain that starts at `h` and follows `llist` visits exactly the
particles `xs`, in this order, and then reaches `-1`. -/
def IsChain (llist : Int → Int) : Int → List Nat → Prop
  | h, [] => h = -1
  | h, x :: xs => h = (x : Int) ∧ IsChain llist (llist x) xs

/-- The particles of `l` whose flattened cell index is `c`, last inserted first. -/
def members (cellOf : Nat → Int) (l : List Nat) (c : Int) : List Nat :=
  (l.filter (fun i => decide (cellOf i = c))).reverse

/-- The record written for the pair `i`, `j` at line 181. -/
def bondOf (g : Grid) (i j : Nat) : Bond :=
  ⟨g.offset + i, g.offset + j, g.K, pairDist2 g i j⟩

/-- What one step of the chain walk of particle `i` writes when it stands on
`j`: nothing when `j ≥ i`, else the bond if it is within the cutoff. -/
def pairBond (g : Grid) (i j : Nat) : List Bond :=
  if j < i ∧ withinCutoff g.Rc (pairDist2 g i j) = true then [bondOf g i j] else []

/-- Appending rows to the output, the counter following. -/
def Emit.add (st : Emit) (l : List Bond) : Emit := ⟨st.out ++ l, st.nbonds + l.length⟩

/-- The successive values of the counter `nm` over `m` iterations. -/
def nmSeq : Nat → Nm → List Nm
  | 0, _ => []
  | m + 1, nm => nm :: nmSeq m (nmNext nm)

/-- The rows written while the outer loop stands on particle `i`. -/
def bondsOfParticle (g : Grid) (i : Nat) : List Bond :=
  (nmSeq (3 ^ g.dim) nmStart).flatMap fun nm =>
    (members (cellOfBuild g) (List.range g.N) (neighbourIndex g i nm)).flatMap (pairBond g i)

/-- The rows written by the whole enumeration. -/
def bondList (g : Grid) : List Bond := (List.range g.N).flatMap (bondsOfParticle g)

/-- The index `c` is an index of `int hlist[ncells]`. -/
def inRange (g : Grid) (c : Int) : Prop := 0 ≤ c ∧ c < g.ncells

/-- Every `hlist` access of the build loop and of the enumeration is in
range. -/
def gridDefined (g : Grid) : Prop :=
  (∀ i ∈ List.range g.N, inRange g (cellOfBuild g i)) ∧
  (∀ i ∈ List.range g.N, ∀ x ∈ nmSeq (3 ^ g.dim) nmStart, inRange g (neighbourIndex g i x))

/-- The box length of axis `k` when domain sizing is over (after line 93). -/
def finalL (N dim : Nat) (Rc : ℚ) (L : Nat → ℚ) (lines : List (List ℚ)) (k : Nat) : Option ℚ :=
  (readEnd N dim L lines).map fun st => enforceMin dim Rc st.L k

/-- The coordinate `pos[i][k]` when the reading loop is over. -/
def storedPos (N dim : Nat) (L : Nat → ℚ) (lines : List (List ℚ)) (i k : Nat) : Option ℚ :=
  (readEnd N dim L lines).map fun st => posAt dim st.pos i k

/-- The displacement component of the specification: `p_j[k] - p_i[k]`, reduced
by the minimum-image rule with the box length of the grid on a periodic axis
and left as it is on an open axis. -/
def imageDisplacement (g : Grid) (i j k : Nat) : ℚ :=
  if g.periodicL k = true then
    (posAt g.dim g.pos j k - posAt g.dim g.pos i k)
      - (⌊(posAt g.dim g.pos j k - posAt g.dim g.pos i k) / g.L k + 1 / 2⌋ : Int) * g.L k
  else posAt g.dim g.pos j k - posAt g.dim g.pos i k

/-- The squared distance of the specification: the sum over the `dim` axes of
the squared displacement components. -/
def imageDist2 (g : Grid) (i j : Nat) : ℚ :=
  ∑ k in Finset.range g.dim, imageDisplacement g i j k ^ 2

/-- The grid facts the enumeration relies on: a positive cutoff and, on every
axis, at least three cells, each at least `Rc` wide, that tile the box. -/
def axisOk (g : Grid) : Prop :=
  0 < g.Rc ∧ ∀ k, k < g.dim → 3 ≤ g.n k ∧ g.Rc ≤ g.cellsize k ∧ (g.n k : ℚ) * g.cellsize k = g.L k

/-- Every stored coordinate lies in `[-L[k]/2, L[k]/2)` of the grid's box. -/
def inBox (g : Grid) : Prop :=
  ∀ i, i < g.N → ∀ k, k < g.dim →
    -(g.L k) / 2 ≤ posAt g.dim g.pos i k ∧ posAt g.dim g.pos i k < g.L k / 2

/-- The scenario of the specification: one dimension, three particles at 0, 1
and 2 on an open axis. -/
def scenarioLines : List (List ℚ) := [[0], [1], [2]]

/-- The state in which the reading loop ends on the scenario. -/
def scenarioState : ReadState :=
  (readEnd 3 1 (vec [-1]) scenarioLines).getD (readStart (vec [-1]))

/-- Lines 162-186 without the loop body: starting at `j`, follow `llist` while
`j >= 0` and list the particles stood on.  The first argument is fuel; `none`
means the fuel ran out before a negative entry was reached. -/
def chainWalk (llist : Int → Int) : Nat → Int → Option (List Int)
  | 0, _ => none
  | fuel + 1, j =>
    if j < 0 then some [] else (chainWalk llist fuel (llist j)).map (fun t => j :: t)

/-- The first `d` entries `nm[0], ..., nm[d-1]` of the counter. -/
def Nm.first (nm : Nm) (d : Nat) : List Int := (List.range d).map nm.get

/-- The offsets used by the `3^d` iterations of the loop of lines 142-192:
the first `d` entries of the successive values of `nm`. -/
def stencilVectors (d : Nat) : List (List Int) :=
  (nmSeq (3 ^ d) nmStart).map fun nm => nm.first d

/-- All vectors of `{-1, 0, 1}^d`. -/
def offsetVectors : Nat → List (List Int)
  | 0 => [[]]
  | d + 1 => (offsetVectors d).flatMap fun v => [-1, 0, 1].map fun a => a :: v

/-- Line 167: the entries of `rij` written by the displacement loop
`for(k = 0; k < 3; k++)`, whatever `dim` is. -/
def displacementWrites : List Nat := List.range 3

/-- Line 167: the entries of the row-major array `pos` read by the
displacement loop for the pair `i`, `j`: `pos[j][k]` and `pos[i][k]` for
`k = 0, 1, 2`. -/
def displacementReads (dim i j : Nat) : List Nat :=
  (List.range 3).flatMap fun k => [j * dim + k, i * dim + k]

/-- An input on which a particle sits on the upper edge of an open axis: one
dimension, particles at 2 and 1.5. -/
def edgeLines : List (List ℚ) := [[2], [3 / 2]]

/-- The state in which the reading loop ends on `edgeLines`. -/
def edgeState : ReadState :=
  (readEnd 2 1 (vec [-1]) edgeLines).getD (readStart (vec [-1]))

/-- The grid of the run on `edgeLines` with `Rc = 1`, `K = 10`, `offset = 0`. -/
def edgeGrid : Grid := gridOf 2 1 10 (vec [-1]) 1 0 edgeState

/-- The bucket structure the build loop leaves on `edgeLines`. -/
def edgeBuckets : Buckets :=
  (buildLoop (cellOfBuild edgeGrid) edgeGrid.ncells (List.range 2) emptyBuckets).getD emptyBuckets

/-- Every stored coordinate lies in the closed interval `[-L[k]/2, L[k]/2]` of
the grid's box. -/
def inBoxClosed (g : Grid) : Prop :=
  ∀ i, i < g.N → ∀ k, k < g.dim →
    -(g.L k) / 2 ≤ posAt g.dim g.pos i k ∧ posAt g.dim g.pos i k ≤ g.L k / 2

/-- The neighbour cell coordinate as the specification words it (§4.3 step 3):
on a periodic axis the coordinate is wrapped once by `n[k]`; on an open axis an
out-of-range coordinate means "no such cell" (`none`) and the offset is
skipped. -/
def specNeighbourCoord (periodic : Nat → Bool) (n c : Nat → Int) (nm : Nm) (k : Nat) :
    Option Int :=
  if periodic k = true then some (neighbourCoord n c nm k)
  else if c k + nm.get k < 0 ∨ n k ≤ c k + nm.get k then none
  else some (c k + nm.get k)

/-- The bucket structure the build loop leaves for three particles in two cells,
particle `i` in cell `i mod 2`. -/
def parityBuckets : Buckets :=
  (buildLoop (fun i => ((i % 2 : Nat) : Int)) 2 (List.range 3) emptyBuckets).getD emptyBuckets

/-! ### Binary32 and binary64 rounding

IEEE 754 round to nearest, ties to even, on rationals.  Overflow to infinity
and NaN are not represented. -/

/-- The power `2^e` for an integer exponent. -/
def pow2 (e : Int) : ℚ :=
  if 0 ≤ e then ((2 ^ e.toNat : Nat) : ℚ) else 1 / ((2 ^ (-e).toNat : Nat) : ℚ)

/-- Counting binary digits, at most as many as the first argument. -/
def bitLenAux : Nat → Nat → Nat
  | 0, _ => 0
  | f + 1, n => if n = 0 then 0 else bitLenAux f (n / 2) + 1

/-- The number of binary digits of `n` (for `n < 2^4096`, which covers the
numerators and denominators of binary64 arithmetic). -/
def bitLen (n : Nat) : Nat := bitLenAux 4096 n

/-- The exponent `e` with `2^e ≤ q < 2^(e+1)`, for `q > 0`. -/
def binade (q : ℚ) : Int :=
  if pow2 ((bitLen q.num.natAbs : Int) - (bitLen q.den : Int)) ≤ q then
    (bitLen q.num.natAbs : Int) - (bitLen q.den : Int)
  else (bitLen q.num.natAbs : Int) - (bitLen q.den : Int) - 1

/-- Rounding to the nearest integer, a tie going to the even one. -/
def roundEven (q : ℚ) : Int :=
  if q - ⌊q⌋ < 1 / 2 then ⌊q⌋
  else if 1 / 2 < q - ⌊q⌋ then ⌊q⌋ + 1
  else if ⌊q⌋ % 2 = 0 then ⌊q⌋ else ⌊q⌋ + 1

/-- Rounding to the nearest multiple of `2^e`, a tie going to the even one. -/
def roundTo (e : Int) (q : ℚ) : ℚ := (roundEven (q / pow2 e) : ℚ) * pow2 e

/-- Rounding to `float` (binary32: 24 significant bits, least exponent -126). -/
def fl32 (q : ℚ) : ℚ := if q.num = 0 then 0 else roundTo (max (binade |q|) (-126) - 23) q

/-- Rounding to `double` (binary64: 53 significant bits, least exponent -1022). -/
def fl64 (q : ℚ) : ℚ := if q.num = 0 then 0 else roundTo (max (binade |q|) (-1022) - 52) q

/-- The integer square root by bits, from bit `b - 1` down. -/
def isqrtLoop (x : Nat) : Nat → Nat → Nat
  | 0, r => r
  | b + 1, r => isqrtLoop x b (if (r + 2 ^ b) * (r + 2 ^ b) ≤ x then r + 2 ^ b else r)

/-- The integer square root `⌊√x⌋`. -/
def isqrt (x : Nat) : Nat := isqrtLoop x (bitLen x / 2 + 1) 0

/-- The `double` function `sqrt` (line 177), correctly rounded: with
`s = ⌊e/2⌋ - 52` for `x` in binade `e`, the nearest multiple of `2^s` to `√x`. -/
def sqrt64 (x : ℚ) : ℚ :=
  if x ≤ 0 then 0
  else
    let s : Int := binade x / 2 - 52
    let k : Nat := isqrt ⌊x / pow2 (2 * s)⌋.toNat
    let m : Int :=
      if x / pow2 (2 * s) < ((k : ℚ) + 1 / 2) ^ 2 then k
      else if ((k : ℚ) + 1 / 2) ^ 2 < x / pow2 (2 * s) then k + 1
      else if k % 2 = 0 then k else k + 1
    (m : ℚ) * pow2 s

/-! ### The function in binary32

The same function with every `float` and `double` operation rounded as C does
with `FLT_EVAL_METHOD` 0, and with the store of line 167 outside `rij[dim]`
counted as undefined.  The arguments `Rc`, `K`, `L` are binary32 values. -/

/-- Lines 87-93: `3*Rc` is a `float` product. -/
def enforceMinF (dim : Nat) (Rc : ℚ) (L : Nat → ℚ) : Nat → ℚ :=
  fun k => if k < dim ∧ L k < fl32 (3 * Rc) then fl32 (3 * Rc) else L k

/-- Line 103: `(int) floorf(L[k]/Rc)`, a `float` quotient. -/
def cellCountF (Rc : ℚ) (L : Nat → ℚ) (k : Nat) : Int := ⌊fl32 (L k / Rc)⌋

/-- Line 104: `L[k]/((float) n[k])`, a `float` quotient. -/
def cellSizeF (Rc : ℚ) (L : Nat → ℚ) (k : Nat) : ℚ :=
  fl32 (L k / fl32 ((cellCountF Rc L k : Int) : ℚ))

/-- Lines 116 and 138: `.5*L[k]`, the sum and the quotient are `double`
operations; `floorf` takes the quotient converted to `float`. -/
def cellCoordF (dim : Nat) (L cellsize : Nat → ℚ) (pos : Nat → ℚ) (i k : Nat) : Int :=
  ⌊fl32 (fl64 (fl64 (posAt dim pos i k + fl64 ((1 / 2) * L k)) / cellsize k))⌋

/-- Lines 116-117 with the clamp. -/
def cellCoordBuildF (dim : Nat) (n : Nat → Int) (L cellsize : Nat → ℚ) (pos : Nat → ℚ)
    (i k : Nat) : Int :=
  if cellCoordF dim L cellsize pos i k = n k then 0 else cellCoordF dim L cellsize pos i k

/-- Line 167: a `float` difference, for `k = 0, 1, 2`. -/
def displacementF (dim : Nat) (pos : Nat → ℚ) (i j : Nat) (k : Nat) : ℚ :=
  if k < 3 then fl32 (posAt dim pos j k - posAt dim pos i k) else 0

/-- Lines 170-173: `rij[k]/L[k] + .5` in `double`, converted to `float` for
`floorf`; the product with `L[k]` is a `float` product; the difference is a
`double`. -/
def minimumImageF (dim : Nat) (periodicL : Nat → Bool) (L : Nat → ℚ) (rij : Nat → ℚ)
    (k : Nat) : ℚ :=
  if k < dim ∧ periodicL k = true then
    fl64 (rij k - fl32 (((⌊fl32 (fl64 (fl64 (rij k / L k) + 1 / 2))⌋ : Int) : ℚ) * L k))
  else rij k

/-- Line 176 in `double`. -/
def sumSquaresF (rij : Nat → ℚ) : Nat → ℚ
  | 0 => 0
  | k + 1 => fl64 (sumSquaresF rij k + fl64 (rij k * rij k))

/-- Lines 166-176: the `double` `r2` computed for the pair `i`, `j`. -/
def pairDist2F (g : Grid) (i j : Nat) : ℚ :=
  sumSquaresF (minimumImageF g.dim g.periodicL g.L (displacementF g.dim g.pos i j)) g.dim

/-- Lines 177 and 180: `r = sqrt(r2); if(r <= Rc)`. -/
def withinCutoffF (Rc r2 : ℚ) : Bool := decide (sqrt64 r2 ≤ Rc)

/-- Lines 180-183.  The record keeps `r2`; the printed distance is `sqrt64 r2`. -/
def emitBondF (g : Grid) (i j : Nat) (st : Emit) : Emit :=
  if withinCutoffF g.Rc (pairDist2F g i j) = true then
    ⟨st.out ++ [⟨g.offset + i, g.offset + j, g.K, pairDist2F g i j⟩], st.nbonds + 1⟩
  else st

/-- Lines 163-186.  When a pair `j < i` is examined with `dim < 3`, line 167
stores `rij[dim], ..., rij[2]` outside `double rij[dim]`: the run is undefined
(`none`), as it is when the fuel runs out. -/
def walkChainF (g : Grid) (llist : Int → Int) (i : Nat) : Nat → Int → Emit → Option Emit
  | 0, _, _ => none
  | fuel + 1, j, st =>
    if j < 0 then some st
    else if j ≥ (i : Int) then walkChainF g llist i fuel (llist j) st
    else if g.dim < 3 then none
    else walkChainF g llist i fuel (llist j) (emitBondF g i j.toNat st)

/-- Lines 137-139 and 144-159 with the `float` cell coordinate. -/
def neighbourIndexF (g : Grid) (i : Nat) (nm : Nm) : Int :=
  cellIndex g.dim g.n (neighbourCoord g.n (cellCoordF g.dim g.L g.cellsize g.pos i) nm)

/-- Lines 142-192. -/
def neighbourLoopF (g : Grid) (b : Buckets) (i : Nat) : Nat → Nm → Emit → Option Emit
  | 0, _, st => some st
  | m + 1, nm, st =>
    if 0 ≤ neighbourIndexF g i nm ∧ neighbourIndexF g i nm < g.ncells then
      match walkChainF g b.llist i (g.N + 1) (b.hlist (neighbourIndexF g i nm)) st with
      | none => none
      | some st1 => neighbourLoopF g b i m (nmNext nm) st1
    else none

/-- Lines 135-193. -/
def particleLoopF (g : Grid) (b : Buckets) : List Nat → Emit → Option Emit
  | [], st => some st
  | i :: rest, st =>
    match neighbourLoopF g b i (3 ^ g.dim) nmStart st with
    | none => none
    | some st1 => particleLoopF g b rest st1

/-- Lines 101-106 in binary32, from the state the reading loop ended in. -/
def gridOfF (N : Nat) (Rc K : ℚ) (L : Nat → ℚ) (dim : Nat) (offset : Int) (st : ReadState) :
    Grid :=
  { N := N, dim := dim, Rc := Rc, K := K, offset := offset,
    periodicL := periodicInit dim L, L := enforceMinF dim Rc st.L, pos := st.pos,
    n := cellCountF Rc (enforceMinF dim Rc st.L),
    cellsize := cellSizeF Rc (enforceMinF dim Rc st.L),
    ncells := ncellsOf (cellCountF Rc (enforceMinF dim Rc st.L)) dim }

/-- The builder's flattened cell index with the `float` cell coordinate. -/
def cellOfBuildF (g : Grid) (i : Nat) : Int :=
  cellIndex g.dim g.n (cellCoordBuildF g.dim g.n g.L g.cellsize g.pos i)

/-- The state in which the reading loop ends when `sscanf` stores each parsed
number as a `float`.  (Lines 77-81 are exact on `float` values: `2*fabs(p)` is
a `float`.) -/
def readEndF (N dim : Nat) (L : Nat → ℚ) (lines : List (List ℚ)) : Option ReadState :=
  readLoop N dim (periodicInit dim L) (lines.map (List.map fl32)) (readStart L)

/-- The function `elastic_network` in binary32.  `some ⟨-1, []⟩` is a
`return -1`; `none` is a run with undefined behaviour: `Rc = 0` at line 103, an
`hlist` index outside `[0, ncells)`, a store outside `rij[dim]` at line 167, or
a chain walk that does not end. -/
def elastic_networkF (N : Nat) (Rc K : ℚ) (L : Nat → ℚ) (positions : Option (List (List ℚ)))
    (dim : Nat) (offset : Int) : Option Result :=
  match positions with
  | none => some ⟨-1, []⟩
  | some lines =>
    match readEndF N dim L lines with
    | none => some ⟨-1, []⟩
    | some st =>
      if st.i < N then some ⟨-1, []⟩
      else if 0 < dim ∧ Rc = 0 then none
      else
        match buildLoop (cellOfBuildF (gridOfF N Rc K L dim offset st))
            (gridOfF N Rc K L dim offset st).ncells (List.range N) emptyBuckets with
        | none => none
        | some b =>
          match particleLoopF (gridOfF N Rc K L dim offset st) b (List.range N) ⟨[], 0⟩ with
          | none => none
          | some e => some ⟨e.nbonds, e.out⟩

/-- The `float` nearest to `0.22`, the cutoff `0.22f`. -/
def rcNarrow : ℚ := fl32 (22 / 100)

/-- Two particles `0.125` apart on the first axis, in three dimensions. -/
def narrowLines : List (List ℚ) := [[-1 / 16, 0, 0], [1 / 16, 0, 0]]

/-- The state in which the reading loop ends on `narrowLines` with open axes. -/
def narrowState : ReadState :=
  (readEndF 2 3 (vec [-1, -1, -1]) narrowLines).getD (readStart (vec [-1, -1, -1]))

/-- The binary32 grid of the run on `narrowLines` with `Rc = 0.22f`, `K = 10`. -/
def narrowGrid : Grid := gridOfF 2 rcNarrow 10 (vec [-1, -1, -1]) 3 0 narrowState

/-- The `float` nearest to `0.1`, the cutoff `0.1f`. -/
def rcMiss : ℚ := fl32 (1 / 10)

/-- Two `float` positions on one axis whose difference is exactly `0.1f`. -/
def missLines : List (List ℚ) := [[-6710887 / 134217728], [3355443 / 67108864]]

/-- The state in which the reading loop ends on `missLines` with `L = [0.5]`. -/
def missState : ReadState :=
  (readEndF 2 1 (vec [1 / 2]) missLines).getD (readStart (vec [1 / 2]))

/-- The binary32 grid of the run on `missLines` with `L = [0.5]`, `Rc = 0.1f`. -/
def missGrid : Grid := gridOfF 2 rcMiss 10 (vec [1 / 2]) 1 0 missState

/-- The `float` nearest to `0.3`, the cutoff `0.3f`. -/
def rcWrap : ℚ := fl32 (3 / 10)

/-- The `float` position `0.44999998807907104`. -/
def pWrap : ℚ := 7549747 / 16777216

/-- The state in which the reading loop ends on `[-0.75, pWrap]` with
`L = [1.5]`. -/
def wrapState : ReadState :=
  (readEndF 2 1 (vec [3 / 2]) [[-3 / 4], [pWrap]]).getD (readStart (vec [3 / 2]))

/-- The binary32 grid of the run on `[-0.75, pWrap]` with `L = [1.5]`,
`Rc = 0.3f`. -/
def wrapGrid : Grid := gridOfF 2 rcWrap 10 (vec [3 / 2]) 1 0 wrapState

/-- Two particles `0.125` apart on the first axis, the first one at half the
`float` product `3*0.22f`. -/
def upperEdgeLines : List (List ℚ) :=
  [[5536481 / 16777216, 0, 0], [3439329 / 16777216, 0, 0]]

/-- The state in which the reading loop ends on `upperEdgeLines` with open
axes. -/
def upperEdgeState : ReadState :=
  (readEndF 2 3 (vec [-1, -1, -1]) upperEdgeLines).getD (readStart (vec [-1, -1, -1]))

/-- The binary32 grid of the run on `upperEdgeLines` with `Rc = 0.22f`. -/
def upperEdgeGrid : Grid := gridOfF 2 rcNarrow 10 (vec [-1, -1, -1]) 3 0 upperEdgeState

/-! ### Cell index arithmetic -/

theorem mulDown_eq (n : Nat → Int) : ∀ (l : Nat) (t : Int), mulDown n l t = t * ncellsOf n l
  | 0, t => by simp [mulDown, ncellsOf]
  | l + 1, t => by rw [mulDown, mulDown_eq n l, ncellsOf]; ring

theorem cellIndexFrom_eq (n c : Nat → Int) :
    ∀ (k : Nat) (acc : Int), cellIndexFrom n c k acc = acc + flatIndex n c k
  | 0, acc => by simp [cellIndexFrom, flatIndex]
  | k + 1, acc => by
    rw [cellIndexFrom, cellIndexFrom_eq n c k, mulDown_eq, flatIndex]; ring

theorem cellIndex_eq (dim : Nat) (n c : Nat → Int) : cellIndex dim n c = flatIndex n c dim := by
  simp [cellIndex, cellIndexFrom_eq]

theorem flatIndex_congr (n c c1 : Nat → Int) :
    ∀ dim : Nat, (∀ k, k < dim → c k = c1 k) → flatIndex n c dim = flatIndex n c1 dim
  | 0, _ => rfl
  | d + 1, h => by
    rw [flatIndex, flatIndex, flatIndex_congr n c c1 d (fun k hk => h k (Nat.lt_succ_of_lt hk)),
      h d (Nat.lt_succ_self d)]

theorem flatIndex_bounds (n c : Nat → Int) :
    ∀ dim : Nat, (∀ k, k < dim → 0 ≤ c k ∧ c k < n k) →
      0 ≤ flatIndex n c dim ∧ flatIndex n c dim < ncellsOf n dim
  | 0, _ => by simp [flatIndex, ncellsOf]
  | d + 1, h => by
    obtain ⟨h0, h1⟩ := flatIndex_bounds n c d (fun k hk => h k (Nat.lt_succ_of_lt hk))
    obtain ⟨hc0, hc1⟩ := h d (Nat.lt_succ_self d)
    have hP : 0 < ncellsOf n d := lt_of_le_of_lt h0 h1
    rw [flatIndex, ncellsOf]
    constructor
    · have := mul_nonneg hc0 hP.le
      linarith
    · have h2 : (c d + 1) * ncellsOf n d ≤ n d * ncellsOf n d :=
        mul_le_mul_of_nonneg_right (by linarith) hP.le
      nlinarith

/-! ### The bucket structure -/

theorem isChain_update (ll : Int → Int) (i : Nat) (v : Int) :
    ∀ (xs : List Nat) (h : Int), i ∉ xs →
      (IsChain (Function.update ll (i : Int) v) h xs ↔ IsChain ll h xs)
  | [], h, _ => by simp [IsChain]
  | x :: xs, h, hi => by
    have hx : x ≠ i := fun e => hi (by simp [e])
    have hxs : i ∉ xs := fun e => hi (by simp [e])
    have hne : (x : Int) ≠ (i : Int) := by exact_mod_cast hx
    simp only [IsChain, Function.update_noteq hne]
    rw [isChain_update ll i v xs (ll x) hxs]

theorem members_append_singleton (cellOf : Nat → Int) (l : List Nat) (i : Nat) (c : Int) :
    members cellOf (l ++ [i]) c
      = if cellOf i = c then i :: members cellOf l c else members cellOf l c := by
  unfold members
  by_cases h : cellOf i = c <;> simp [List.filter_append, List.filter_cons, h]

theorem mem_members {cellOf : Nat → Int} {l : List Nat} {c : Int} {j : Nat} :
    j ∈ members cellOf l c ↔ j ∈ l ∧ cellOf j = c := by
  simp [members]

theorem buildLoop_chain (cellOf : Nat → Int) (ncells : Int) :
    ∀ (rest done : List Nat) (b b1 : Buckets), (done ++ rest).Nodup →
      (∀ c, IsChain b.llist (b.hlist c) (members cellOf done c)) →
      buildLoop cellOf ncells rest b = some b1 →
      ∀ c, IsChain b1.llist (b1.hlist c) (members cellOf (done ++ rest) c)
  | [], done, b, b1, _, hinv, hb => by
    simp only [buildLoop, Option.some.injEq] at hb
    subst hb
    simpa using hinv
  | i :: rest, done, b, b1, hnd, hinv, hb => by
    rw [buildLoop] at hb
    split at hb
    · have hnd1 : ((done ++ [i]) ++ rest).Nodup := by simpa using hnd
      have hi : i ∉ done := by
        intro hmem
        have := List.nodup_append.1 hnd
        exact (List.disjoint_left.1 this.2.2) hmem (by simp)
      have key := buildLoop_chain cellOf ncells rest (done ++ [i]) _ b1 hnd1 ?_ hb
      · simpa using key
      · intro c
        have hnot : ∀ c1, i ∉ members cellOf done c1 := fun c1 hm => hi (mem_members.1 hm).1
        rw [members_append_singleton]
        by_cases hc : cellOf i = c
        · subst hc
          simp only [if_true, IsChain, Function.update_same, true_and]
          exact (isChain_update _ i _ _ _ (hnot _)).2 (hinv _)
        · simp only [hc, if_false]
          rw [Function.update_noteq (Ne.symm hc)]
          exact (isChain_update _ i _ _ _ (hnot _)).2 (hinv _)
    · exact absurd hb (by simp)

theorem buildLoop_some_iff (cellOf : Nat → Int) (ncells : Int) :
    ∀ (rest : List Nat) (b : Buckets),
      (∃ b1, buildLoop cellOf ncells rest b = some b1) ↔
        ∀ i ∈ rest, 0 ≤ cellOf i ∧ cellOf i < ncells
  | [], b => by simp [buildLoop]
  | i :: rest, b => by
    rw [buildLoop]
    by_cases h : 0 ≤ cellOf i ∧ cellOf i < ncells
    · rw [if_pos h, buildLoop_some_iff cellOf ncells rest]
      simp [h]
    · rw [if_neg h]
      simp only [List.mem_cons, forall_eq_or_imp]
      constructor
      · rintro ⟨b1, hb⟩
        exact absurd hb (by simp)
      · intro hh
        exact absurd hh.1 h

/-! ### The enumeration loops -/

theorem emit_add_nil (st : Emit) : st.add [] = st := by
  cases st; simp [Emit.add]

theorem emit_add_add (st : Emit) (l1 l2 : List Bond) : (st.add l1).add l2 = st.add (l1 ++ l2) := by
  simp [Emit.add, List.append_assoc, add_assoc]

theorem emitBond_eq (g : Grid) (i j : Nat) (st : Emit) (h : j < i) :
    emitBond g i j st = st.add (pairBond g i j) := by
  unfold emitBond pairBond
  by_cases hw : withinCutoff g.Rc (pairDist2 g i j) = true
  · simp [hw, h, Emit.add, bondOf]
  · simp [hw, emit_add_nil]

theorem pairBond_of_le (g : Grid) (i j : Nat) (h : i ≤ j) : pairBond g i j = [] := by
  simp [pairBond, Nat.not_lt.2 h]

theorem walkChain_chain (g : Grid) (ll : Int → Int) (i : Nat) :
    ∀ (xs : List Nat) (fuel : Nat) (h : Int) (st : Emit), IsChain ll h xs → xs.length < fuel →
      walkChain g ll i fuel h st = some (st.add (xs.flatMap (pairBond g i)))
  | [], fuel, h, st, hc, hf => by
    obtain ⟨f, rfl⟩ : ∃ f, fuel = f + 1 := ⟨fuel - 1, by simp at hf; omega⟩
    simp only [IsChain] at hc
    subst hc
    simp [walkChain, emit_add_nil]
  | x :: xs, fuel, h, st, hc, hf => by
    obtain ⟨f, rfl⟩ : ∃ f, fuel = f + 1 := ⟨fuel - 1, by simp at hf; omega⟩
    obtain ⟨hx, hrest⟩ := hc
    subst hx
    have hlen : xs.length < f := by simp at hf; omega
    have hnn : ¬ ((x : Int) < 0) := by omega
    rw [walkChain, if_neg hnn]
    by_cases hge : (x : Int) ≥ (i : Int)
    · rw [if_pos hge, walkChain_chain g ll i xs f _ st hrest hlen]
      have : i ≤ x := by exact_mod_cast hge
      simp [List.flatMap_cons, pairBond_of_le g i x this]
    · rw [if_neg hge, walkChain_chain g ll i xs f _ _ hrest hlen]
      have hlt : x < i := by
        have : (x : Int) < (i : Int) := lt_of_not_ge hge
        exact_mod_cast this
      simp [List.flatMap_cons, Int.toNat_ofNat, emitBond_eq g i x st hlt, emit_add_add]

theorem neighbourLoop_iff (g : Grid) (b : Buckets) (i : Nat) (mem : Int → List Nat)
    (hch : ∀ c, IsChain b.llist (b.hlist c) (mem c)) (hlen : ∀ c, (mem c).length ≤ g.N) :
    ∀ (m : Nat) (nm : Nm) (st st1 : Emit),
      neighbourLoop g b i m nm st = some st1 ↔
        (∀ x ∈ nmSeq m nm, 0 ≤ neighbourIndex g i x ∧ neighbourIndex g i x < g.ncells) ∧
        st1 = st.add ((nmSeq m nm).flatMap fun x =>
          (mem (neighbourIndex g i x)).flatMap (pairBond g i))
  | 0, nm, st, st1 => by
    simp [neighbourLoop, nmSeq, emit_add_nil, eq_comm]
  | m + 1, nm, st, st1 => by
    rw [neighbourLoop]
    by_cases hb : 0 ≤ neighbourIndex g i nm ∧ neighbourIndex g i nm < g.ncells
    · rw [if_pos hb, walkChain_chain g b.llist i _ (g.N + 1) _ st (hch _)
        (Nat.lt_succ_of_le (hlen _))]
      simp only []
      rw [neighbourLoop_iff g b i mem hch hlen m (nmNext nm)]
      simp [nmSeq, hb, List.flatMap_cons, emit_add_add]
    · rw [if_neg hb]
      simp only [nmSeq, List.mem_cons, forall_eq_or_imp]
      constructor
      · intro h; exact absurd h (by simp)
      · intro h; exact absurd h.1.1 hb

theorem particleLoop_iff (g : Grid) (b : Buckets) (mem : Int → List Nat)
    (hch : ∀ c, IsChain b.llist (b.hlist c) (mem c)) (hlen : ∀ c, (mem c).length ≤ g.N) :
    ∀ (l : List Nat) (st st1 : Emit),
      particleLoop g b l st = some st1 ↔
        (∀ i ∈ l, ∀ x ∈ nmSeq (3 ^ g.dim) nmStart,
          0 ≤ neighbourIndex g i x ∧ neighbourIndex g i x < g.ncells) ∧
        st1 = st.add (l.flatMap fun i => (nmSeq (3 ^ g.dim) nmStart).flatMap fun x =>
          (mem (neighbourIndex g i x)).flatMap (pairBond g i))
  | [], st, st1 => by
    simp [particleLoop, emit_add_nil, eq_comm]
  | i :: l, st, st1 => by
    rw [particleLoop]
    cases hn : neighbourLoop g b i (3 ^ g.dim) nmStart st with
    | none =>
      simp only [List.mem_cons, forall_eq_or_imp]
      constructor
      · intro h; exact absurd h (by simp)
      · rintro ⟨⟨h1, _⟩, _⟩
        have := (neighbourLoop_iff g b i mem hch hlen (3 ^ g.dim) nmStart st _).2 ⟨h1, rfl⟩
        rw [hn] at this
        exact absurd this (by simp)
    | some st2 =>
      obtain ⟨h1, h2⟩ := (neighbourLoop_iff g b i mem hch hlen (3 ^ g.dim) nmStart st st2).1 hn
      simp only []
      rw [particleLoop_iff g b mem hch hlen l st2 st1, h2]
      simp only [List.mem_cons, forall_eq_or_imp, List.flatMap_cons, emit_add_add]
      constructor
      · rintro ⟨h3, h4⟩; exact ⟨⟨h1, h3⟩, h4⟩
      · rintro ⟨⟨_, h3⟩, h4⟩; exact ⟨h3, h4⟩

/-! ### The whole run -/

theorem members_length_le (cellOf : Nat → Int) (N : Nat) (c : Int) :
    (members cellOf (List.range N) c).length ≤ N := by
  unfold members
  rw [List.length_reverse]
  exact le_trans (List.length_filter_le _ _) (by simp)

theorem emptyBuckets_chain (cellOf : Nat → Int) (c : Int) :
    IsChain emptyBuckets.llist (emptyBuckets.hlist c) (members cellOf [] c) := by
  simp [members, IsChain, emptyBuckets]

theorem run_after_read (N : Nat) (Rc K : ℚ) (L : Nat → ℚ) (dim : Nat) (offset : Int)
    (st : ReadState) (r : Option Result)
    (hr : r = match buildLoop (cellOfBuild (gridOf N Rc K L dim offset st))
            (gridOf N Rc K L dim offset st).ncells (List.range N) emptyBuckets with
          | none => none
          | some b =>
            match particleLoop (gridOf N Rc K L dim offset st) b (List.range N) ⟨[], 0⟩ with
            | none => none
            | some e => some ⟨e.nbonds, e.out⟩)
    (res : Result) :
    r = some res ↔ gridDefined (gridOf N Rc K L dim offset st) ∧
      res = ⟨((bondList (gridOf N Rc K L dim offset st)).length : Int),
        bondList (gridOf N Rc K L dim offset st)⟩ := by
  subst hr
  cases hb : buildLoop (cellOfBuild (gridOf N Rc K L dim offset st))
      (gridOf N Rc K L dim offset st).ncells (List.range N) emptyBuckets with
  | none =>
    simp only []
    constructor
    · intro h; exact absurd h (by simp)
    · rintro ⟨⟨h1, _⟩, _⟩
      obtain ⟨b1, hb1⟩ := (buildLoop_some_iff _ _ (List.range N) emptyBuckets).2 h1
      rw [hb] at hb1
      exact absurd hb1 (by simp)
  | some b =>
    have h1 := (buildLoop_some_iff _ _ (List.range N) emptyBuckets).1 ⟨b, hb⟩
    have hch := buildLoop_chain _ _ (List.range N) [] emptyBuckets b
      (by simpa using List.nodup_range N) (emptyBuckets_chain _) hb
    simp only [List.nil_append] at hch
    have hlen := members_length_le (cellOfBuild (gridOf N Rc K L dim offset st)) N
    simp only []
    cases hp : particleLoop (gridOf N Rc K L dim offset st) b (List.range N) ⟨[], 0⟩ with
    | none =>
      simp only []
      constructor
      · intro h; exact absurd h (by simp)
      · rintro ⟨⟨_, h2⟩, _⟩
        have := (particleLoop_iff _ b _ hch hlen (List.range N) ⟨[], 0⟩ _).2 ⟨h2, rfl⟩
        rw [hp] at this
        exact absurd this (by simp)
    | some e =>
      obtain ⟨h2, h3⟩ := (particleLoop_iff _ b _ hch hlen (List.range N) ⟨[], 0⟩ e).1 hp
      have hout : e.out = bondList (gridOf N Rc K L dim offset st) := by
        rw [h3]; simp only [Emit.add, List.nil_append]; rfl
      have hnb : e.nbonds = ((bondList (gridOf N Rc K L dim offset st)).length : Int) := by
        rw [h3]; simp only [Emit.add, zero_add]; rfl
      have he : (⟨e.nbonds, e.out⟩ : Result)
          = ⟨((bondList (gridOf N Rc K L dim offset st)).length : Int),
              bondList (gridOf N Rc K L dim offset st)⟩ := by
        rw [hout, hnb]
      simp only [Option.some.injEq]
      rw [he]
      constructor
      · intro h
        exact ⟨⟨h1, h2⟩, h.symm⟩
      · rintro ⟨_, h⟩
        exact h.symm

theorem elastic_network_iff (N : Nat) (Rc K : ℚ) (L : Nat → ℚ) (lines : List (List ℚ))
    (dim : Nat) (offset : Int) (res : Result) :
    elastic_network N Rc K L (some lines) dim offset = some res ↔
      (readEnd N dim L lines = none ∧ res = ⟨-1, []⟩) ∨
      ∃ st, readEnd N dim L lines = some st ∧
        ((st.i < N ∧ res = ⟨-1, []⟩) ∨
         (N ≤ st.i ∧ ¬ (0 < dim ∧ Rc = 0) ∧ gridDefined (gridOf N Rc K L dim offset st) ∧
           res = ⟨((bondList (gridOf N Rc K L dim offset st)).length : Int),
             bondList (gridOf N Rc K L dim offset st)⟩)) := by
  unfold elastic_network readEnd
  cases hr : readLoop N dim (periodicInit dim L) lines (readStart L) with
  | none => simp [hr, eq_comm]
  | some st =>
    simp only [hr, false_and, false_or, Option.some.injEq, exists_eq_left']
    by_cases h1 : st.i < N
    · simp [h1, eq_comm, Nat.not_le.2 h1]
    · rw [if_neg h1]
      by_cases h2 : 0 < dim ∧ Rc = 0
      · rw [if_pos h2]
        simp [h1, h2]
      · rw [if_neg h2]
        have := run_after_read N Rc K L dim offset st _ rfl res
        simp only [] at this ⊢
        rw [this]
        simp [h1, h2, Nat.le_of_not_lt h1]

/-! ### The reading loop -/

theorem readLoop_some (N dim : Nat) (per : Nat → Bool) (hdim : dim = 1 ∨ dim = 2 ∨ dim = 3) :
    ∀ (lines : List (List ℚ)) (st : ReadState), ∃ st1, readLoop N dim per lines st = some st1
  | [], st => ⟨st, rfl⟩
  | line :: rest, st => by
    rw [readLoop, if_pos hdim]
    simp only []
    split
    · split
      · exact ⟨_, rfl⟩
      · exact readLoop_some N dim per hdim rest _
    · exact readLoop_some N dim per hdim rest _

theorem readLoop_count (N dim : Nat) (per : Nat → Bool) :
    ∀ (lines : List (List ℚ)) (st st1 : ReadState), readLoop N dim per lines st = some st1 →
      st1.i ≤ st.i + (lines.filter (validRow dim)).length
  | [], st, st1, h => by
    simp only [readLoop, Option.some.injEq] at h
    subst h; simp
  | line :: rest, st, st1, h => by
    rw [readLoop] at h
    split at h
    · simp only [] at h
      by_cases hv : min line.length dim = dim
      · have hvr : validRow dim line = true := by simp [validRow, hv]
        rw [if_pos hv] at h
        rw [List.filter_cons_of_pos hvr, List.length_cons]
        split at h
        · simp only [Option.some.injEq] at h
          subst h; simp only []; omega
        · have := readLoop_count N dim per rest _ st1 h
          simp only [] at this; omega
      · have hvr : ¬ (validRow dim line = true) := by simp [validRow, hv]
        rw [if_neg hv] at h
        rw [List.filter_cons_of_neg hvr]
        exact readLoop_count N dim per rest ⟨st.i, storeRow dim st.i line st.pos, st.L⟩ st1 h
    · exact absurd h (by simp)

theorem readLoop_dim (N dim : Nat) (per : Nat → Bool) :
    ∀ (lines : List (List ℚ)) (st st1 : ReadState), readLoop N dim per lines st = some st1 →
      st.i < st1.i → dim = 1 ∨ dim = 2 ∨ dim = 3
  | [], st, st1, h, hlt => by
    simp only [readLoop, Option.some.injEq] at h
    subst h; exact absurd hlt (lt_irrefl _)
  | line :: rest, st, st1, h, _ => by
    rw [readLoop] at h
    split at h
    · assumption
    · exact absurd h (by simp)

theorem readLoop_periodic (N dim : Nat) (per : Nat → Bool) (k : Nat) (hk : per k = true) :
    ∀ (lines : List (List ℚ)) (st st1 : ReadState), readLoop N dim per lines st = some st1 →
      st1.L k = st.L k
  | [], st, st1, h => by
    simp only [readLoop, Option.some.injEq] at h
    subst h; rfl
  | line :: rest, st, st1, h => by
    have hg : ∀ (pos : Nat → ℚ), growBox dim st.i per pos st.L k = st.L k := by
      intro pos; simp [growBox, hk]
    rw [readLoop] at h
    split at h
    · simp only [] at h
      split at h
      · split at h
        · simp only [Option.some.injEq] at h
          subst h; exact hg _
        · rw [readLoop_periodic N dim per k hk rest _ st1 h]; exact hg _
      · rw [readLoop_periodic N dim per k hk rest _ st1 h]
    · exact absurd h (by simp)

theorem readLoop_full (N dim : Nat) (per : Nat → Bool) :
    ∀ (lines : List (List ℚ)) (st st1 : ReadState), readLoop N dim per lines st = some st1 →
      N ≤ st.i + (lines.filter (validRow dim)).length → N ≤ st1.i
  | [], st, st1, h, hc => by
    simp only [readLoop, Option.some.injEq] at h
    subst h; simpa using hc
  | line :: rest, st, st1, h, hc => by
    rw [readLoop] at h
    split at h
    · simp only [] at h
      by_cases hv : min line.length dim = dim
      · have hvr : validRow dim line = true := by simp [validRow, hv]
        rw [if_pos hv] at h
        rw [List.filter_cons_of_pos hvr, List.length_cons] at hc
        split at h
        · simp only [Option.some.injEq] at h
          subst h; assumption
        · exact readLoop_full N dim per rest _ st1 h (by simp only []; omega)
      · have hvr : ¬ (validRow dim line = true) := by simp [validRow, hv]
        rw [if_neg hv] at h
        rw [List.filter_cons_of_neg hvr] at hc
        exact readLoop_full N dim per rest ⟨st.i, storeRow dim st.i line st.pos, st.L⟩ st1 h hc
    · exact absurd h (by simp)

theorem storeRow_below (dim i : Nat) (line : List ℚ) (pos : Nat → ℚ) (i1 k : Nat)
    (hi : i1 < i) (hk : k < dim) :
    posAt dim (storeRow dim i line pos) i1 k = posAt dim pos i1 k := by
  have h1 : i1 * dim + k < i * dim := by
    have : (i1 + 1) * dim ≤ i * dim := Nat.mul_le_mul_right dim hi
    have e : (i1 + 1) * dim = i1 * dim + dim := by ring
    omega
  unfold posAt storeRow
  rw [if_neg (fun h => absurd h.1 (by omega))]

theorem storeRow_row (dim i : Nat) (line : List ℚ) (pos : Nat → ℚ) (k : Nat)
    (hv : min line.length dim = dim) (hk : k < dim) :
    posAt dim (storeRow dim i line pos) i k = line.getD k 0 := by
  unfold posAt storeRow
  rw [if_pos ⟨by omega, by omega⟩]
  congr 1
  omega

theorem readLoop_rows (N dim : Nat) (per : Nat → Bool) :
    ∀ (lines : List (List ℚ)) (st st1 : ReadState), readLoop N dim per lines st = some st1 →
      (∀ i k, i < st.i → k < dim → posAt dim st1.pos i k = posAt dim st.pos i k) ∧
      (∀ i k, st.i ≤ i → i < st1.i → k < dim →
        posAt dim st1.pos i k = ((lines.filter (validRow dim)).getD (i - st.i) []).getD k 0)
  | [], st, st1, h => by
    simp only [readLoop, Option.some.injEq] at h
    subst h
    exact ⟨fun _ _ _ _ => rfl, fun i k h1 h2 _ => absurd (lt_of_le_of_lt h1 h2) (lt_irrefl _)⟩
  | line :: rest, st, st1, h => by
    rw [readLoop] at h
    split at h
    · simp only [] at h
      by_cases hv : min line.length dim = dim
      · have hvr : validRow dim line = true := by simp [validRow, hv]
        rw [if_pos hv] at h
        rw [List.filter_cons_of_pos hvr]
        split at h
        · simp only [Option.some.injEq] at h
          subst h
          refine ⟨fun i k hi hk => storeRow_below dim st.i line st.pos i k hi hk, ?_⟩
          intro i k h1 h2 hk
          obtain rfl : i = st.i := by simp only [] at h2; omega
          rw [Nat.sub_self]
          exact storeRow_row dim _ line st.pos k hv hk
        · obtain ⟨ih1, ih2⟩ := readLoop_rows N dim per rest _ st1 h
          simp only [] at ih1 ih2
          refine ⟨fun i k hi hk => ?_, fun i k h1 h2 hk => ?_⟩
          · rw [ih1 i k (by omega) hk]
            exact storeRow_below dim st.i line st.pos i k hi hk
          · rcases Nat.eq_or_lt_of_le h1 with he | hlt
            · subst he
              rw [ih1 _ k (by omega) hk, Nat.sub_self]
              exact storeRow_row dim _ line st.pos k hv hk
            · rw [ih2 i k (by omega) h2 hk]
              obtain ⟨d, hd⟩ : ∃ d, i - st.i = d + 1 := ⟨i - st.i - 1, by omega⟩
              have hd1 : i - (st.i + 1) = d := by omega
              rw [hd, hd1]
              rfl
      · have hvr : ¬ (validRow dim line = true) := by simp [validRow, hv]
        rw [if_neg hv] at h
        rw [List.filter_cons_of_neg hvr]
        obtain ⟨ih1, ih2⟩ :=
          readLoop_rows N dim per rest ⟨st.i, storeRow dim st.i line st.pos, st.L⟩ st1 h
        simp only [] at ih1 ih2
        refine ⟨fun i k hi hk => ?_, ih2⟩
        rw [ih1 i k hi hk]
        exact storeRow_below dim st.i line st.pos i k hi hk
    · exact absurd h (by simp)

theorem stored_rows (N dim : Nat) (L : Nat → ℚ) (lines : List (List ℚ)) (st : ReadState)
    (h : readEnd N dim L lines = some st) (i k : Nat) (hi : i < st.i) (hk : k < dim) :
    posAt dim st.pos i k = ((lines.filter (validRow dim)).getD i []).getD k 0 := by
  have := (readLoop_rows N dim _ lines (readStart L) st h).2 i k (Nat.zero_le _) hi hk
  simpa [readStart] using this

/-! ### Distances -/

theorem sumSquares_eq_sum (f : Nat → ℚ) :
    ∀ d : Nat, sumSquares f d = ∑ k in Finset.range d, f k ^ 2
  | 0 => by simp [sumSquares]
  | d + 1 => by rw [sumSquares, sumSquares_eq_sum f d, Finset.sum_range_succ]; ring

theorem pairDist2_eq (g : Grid) (i j : Nat) (hdim : g.dim ≤ 3) :
    pairDist2 g i j = imageDist2 g i j := by
  unfold pairDist2 imageDist2
  rw [sumSquares_eq_sum]
  refine Finset.sum_congr rfl fun k hk => ?_
  have hk1 : k < g.dim := Finset.mem_range.1 hk
  have hk3 : k < 3 := lt_of_lt_of_le hk1 hdim
  simp [minimumImage, displacement, imageDisplacement, hk1, hk3]

theorem mem_pairBond {g : Grid} {i j : Nat} {b : Bond} :
    b ∈ pairBond g i j ↔ j < i ∧ withinCutoff g.Rc (pairDist2 g i j) = true ∧ b = bondOf g i j := by
  unfold pairBond
  split
  · rename_i h; simp [h.1, h.2]
  · rename_i h
    simp only [List.not_mem_nil, false_iff]
    rintro ⟨h1, h2, _⟩
    exact h ⟨h1, h2⟩

theorem mem_bondList {g : Grid} {b : Bond} :
    b ∈ bondList g ↔ ∃ i j, j < i ∧ i < g.N ∧ j < g.N ∧
      (∃ x ∈ nmSeq (3 ^ g.dim) nmStart, cellOfBuild g j = neighbourIndex g i x) ∧
      withinCutoff g.Rc (pairDist2 g i j) = true ∧ b = bondOf g i j := by
  simp only [bondList, bondsOfParticle, List.mem_flatMap, List.mem_range, mem_members, mem_pairBond]
  constructor
  · rintro ⟨i, hi, x, hx, j, ⟨hj, hc⟩, hji, hw, hb⟩
    exact ⟨i, j, hji, hi, hj, ⟨x, hx, hc⟩, hw, hb⟩
  · rintro ⟨i, j, hji, hi, hj, ⟨x, hx, hc⟩, hw, hb⟩
    exact ⟨i, hi, x, hx, j, ⟨hj, hc⟩, hji, hw, hb⟩

/-! ### Consequences for a completed run -/

theorem run_null (N : Nat) (Rc K : ℚ) (L : Nat → ℚ) (dim : Nat) (offset : Int) :
    elastic_network N Rc K L none dim offset = some ⟨-1, []⟩ := rfl

theorem run_cases (N : Nat) (Rc K : ℚ) (L : Nat → ℚ) (positions : Option (List (List ℚ)))
    (dim : Nat) (offset : Int) (res : Result)
    (h : elastic_network N Rc K L positions dim offset = some res) :
    res = ⟨-1, []⟩ ∨
      ∃ lines st, positions = some lines ∧ readEnd N dim L lines = some st ∧ N ≤ st.i ∧
        ¬ (0 < dim ∧ Rc = 0) ∧ gridDefined (gridOf N Rc K L dim offset st) ∧
        res = ⟨((bondList (gridOf N Rc K L dim offset st)).length : Int),
          bondList (gridOf N Rc K L dim offset st)⟩ := by
  cases positions with
  | none =>
    rw [run_null] at h
    exact Or.inl (Option.some.inj h).symm
  | some lines =>
    rcases (elastic_network_iff N Rc K L lines dim offset res).1 h with ⟨_, h1⟩ | ⟨st, hst, h1⟩
    · exact Or.inl h1
    · rcases h1 with ⟨_, h2⟩ | ⟨h2, h3, h4, h5⟩
      · exact Or.inl h2
      · exact Or.inr ⟨lines, st, rfl, hst, h2, h3, h4, h5⟩

theorem run_bond (N : Nat) (Rc K : ℚ) (L : Nat → ℚ) (positions : Option (List (List ℚ)))
    (dim : Nat) (offset : Int) (res : Result)
    (h : elastic_network N Rc K L positions dim offset = some res) (b : Bond) (hb : b ∈ res.out) :
    ∃ lines st, positions = some lines ∧ readEnd N dim L lines = some st ∧ N ≤ st.i ∧
      (dim = 1 ∨ dim = 2 ∨ dim = 3) ∧ gridDefined (gridOf N Rc K L dim offset st) ∧
      res.out = bondList (gridOf N Rc K L dim offset st) ∧
      ∃ i j, j < i ∧ i < N ∧
        withinCutoff Rc (pairDist2 (gridOf N Rc K L dim offset st) i j) = true ∧
        b = bondOf (gridOf N Rc K L dim offset st) i j := by
  rcases run_cases N Rc K L positions dim offset res h with h1 | ⟨lines, st, hp, hst, hN, _, hd, hres⟩
  · rw [h1] at hb
    exact absurd hb (List.not_mem_nil _)
  · have hout : res.out = bondList (gridOf N Rc K L dim offset st) := by rw [hres]
    rw [hout] at hb
    obtain ⟨i, j, hji, hi, _, _, hw, hbe⟩ := mem_bondList.1 hb
    have hi1 : i < N := hi
    have hdim : dim = 1 ∨ dim = 2 ∨ dim = 3 :=
      readLoop_dim N dim _ lines (readStart L) st hst
        (by simp only [readStart]; omega)
    exact ⟨lines, st, hp, hst, hN, hdim, hd, hout, i, j, hji, hi1, hw, hbe⟩

/-! ### Geometry of one axis -/

theorem floor_near (a b : ℚ) (h : |b - a| ≤ 1) : ⌊a⌋ - 1 ≤ ⌊b⌋ ∧ ⌊b⌋ ≤ ⌊a⌋ + 1 := by
  obtain ⟨h1, h2⟩ := abs_le.1 h
  constructor
  · rw [Int.le_floor]
    push_cast
    have := Int.floor_le a
    linarith
  · have h3 : ⌊b⌋ < ⌊a⌋ + 2 := by
      rw [Int.floor_lt]
      push_cast
      have := Int.lt_floor_add_one a
      linarith
    omega

theorem enforceMin_ge (dim : Nat) (Rc : ℚ) (L : Nat → ℚ) (k : Nat) (hk : k < dim) :
    3 * Rc ≤ enforceMin dim Rc L k := by
  unfold enforceMin
  split
  · exact le_refl _
  · rename_i h
    by_contra hlt
    exact h ⟨hk, lt_of_not_ge hlt⟩

theorem grid_axis (Rc : ℚ) (hRc : 0 < Rc) (Lf : Nat → ℚ) (k : Nat) (hL : 3 * Rc ≤ Lf k) :
    3 ≤ cellCount Rc Lf k ∧ Rc ≤ cellSize Rc Lf k ∧
      (cellCount Rc Lf k : ℚ) * cellSize Rc Lf k = Lf k := by
  have h3 : 3 ≤ cellCount Rc Lf k := by
    unfold cellCount
    rw [Int.le_floor]
    push_cast
    rw [le_div_iff₀ hRc]
    exact hL
  have hpos : (0 : ℚ) < (cellCount Rc Lf k : ℚ) := by
    have : (3 : ℚ) ≤ (cellCount Rc Lf k : ℚ) := by exact_mod_cast h3
    linarith
  refine ⟨h3, ?_, ?_⟩
  · unfold cellSize
    rw [le_div_iff₀ hpos]
    have h1 : ((cellCount Rc Lf k : Int) : ℚ) ≤ Lf k / Rc := Int.floor_le _
    rw [le_div_iff₀ hRc] at h1
    linarith
  · unfold cellSize
    field_simp

theorem gridOf_axisOk (N : Nat) (Rc K : ℚ) (L : Nat → ℚ) (dim : Nat) (offset : Int)
    (st : ReadState) (hRc : 0 < Rc) : axisOk (gridOf N Rc K L dim offset st) := by
  refine ⟨hRc, fun k hk => ?_⟩
  exact grid_axis Rc hRc _ k (enforceMin_ge dim Rc st.L k hk)

theorem cellCoord_range (g : Grid) (hg : axisOk g) (hb : inBox g) (i : Nat) (hi : i < g.N)
    (k : Nat) (hk : k < g.dim) :
    0 ≤ cellCoord g.dim g.L g.cellsize g.pos i k ∧
      cellCoord g.dim g.L g.cellsize g.pos i k < g.n k := by
  obtain ⟨hRc, hax⟩ := hg
  obtain ⟨_, hcs, hn⟩ := hax k hk
  obtain ⟨h0, h1⟩ := hb i hi k hk
  have hcs0 : 0 < g.cellsize k := lt_of_lt_of_le hRc hcs
  unfold cellCoord
  constructor
  · apply Int.floor_nonneg.2
    apply div_nonneg _ hcs0.le
    linarith
  · rw [Int.floor_lt, div_lt_iff₀ hcs0, hn]
    linarith

theorem cellCoordBuild_eq (g : Grid) (hg : axisOk g) (hb : inBox g) (i : Nat) (hi : i < g.N)
    (k : Nat) (hk : k < g.dim) :
    cellCoordBuild g.dim g.n g.L g.cellsize g.pos i k
      = cellCoord g.dim g.L g.cellsize g.pos i k := by
  have := (cellCoord_range g hg hb i hi k hk).2
  unfold cellCoordBuild
  rw [if_neg (ne_of_lt this)]

theorem neighbourCoord_eq (n c : Nat → Int) (nm : Nm) (k : Nat) (t m : Int)
    (h : c k + nm.get k = t - m * n k) (ht0 : 0 ≤ t) (ht1 : t < n k)
    (hx0 : -1 ≤ c k + nm.get k) (hx1 : c k + nm.get k ≤ n k) :
    neighbourCoord n c nm k = t := by
  have hn : 0 < n k := lt_of_le_of_lt ht0 ht1
  have hm1 : m ≤ 1 := by
    by_contra hc
    have : 2 ≤ m := by omega
    nlinarith
  have hm2 : -1 ≤ m := by
    by_contra hc
    have : m ≤ -2 := by omega
    nlinarith
  unfold neighbourCoord
  simp only []
  have hcases : m = -1 ∨ m = 0 ∨ m = 1 := by omega
  rcases hcases with rfl | rfl | rfl
  · have hx : c k + nm.get k = t + n k := by rw [h]; ring
    rw [hx]; split_ifs <;> omega
  · have hx : c k + nm.get k = t := by rw [h]; ring
    rw [hx]; split_ifs <;> omega
  · have hx : c k + nm.get k = t - n k := by rw [h]; ring
    rw [hx]; split_ifs <;> omega

theorem neighbourCoord_range (n c : Nat → Int) (nm : Nm) (k : Nat)
    (hc0 : 0 ≤ c k) (hc1 : c k < n k) (hd : nm.get k = -1 ∨ nm.get k = 0 ∨ nm.get k = 1) :
    0 ≤ neighbourCoord n c nm k ∧ neighbourCoord n c nm k < n k := by
  unfold neighbourCoord
  simp only []
  rcases hd with h | h | h <;> rw [h] <;> split_ifs <;> constructor <;> omega

theorem axis_shift (Lk cs p q d1 : ℚ) (n m : Int) (hcs : 0 < cs) (hn : (n : ℚ) * cs = Lk)
    (hd : q - p = d1 + m * Lk) (hd1 : |d1| ≤ cs) :
    ∃ δ : Int, (δ = -1 ∨ δ = 0 ∨ δ = 1) ∧
      ⌊(p + 1 / 2 * Lk) / cs⌋ + δ = ⌊(q + 1 / 2 * Lk) / cs⌋ - m * n := by
  have hw : (q + 1 / 2 * Lk) / cs = ((p + 1 / 2 * Lk) / cs + d1 / cs) + ((m * n : Int) : ℚ) := by
    have hq : q = p + d1 + m * Lk := by linarith
    rw [hq, ← hn]
    push_cast
    field_simp
    ring
  have hfl : ⌊(q + 1 / 2 * Lk) / cs⌋ = ⌊(p + 1 / 2 * Lk) / cs + d1 / cs⌋ + m * n := by
    rw [hw, Int.floor_add_int]
  have habs : |((p + 1 / 2 * Lk) / cs + d1 / cs) - (p + 1 / 2 * Lk) / cs| ≤ 1 := by
    have : ((p + 1 / 2 * Lk) / cs + d1 / cs) - (p + 1 / 2 * Lk) / cs = d1 / cs := by ring
    rw [this, abs_div, abs_of_pos hcs, div_le_one hcs]
    exact hd1
  obtain ⟨h1, h2⟩ := floor_near _ _ habs
  refine ⟨⌊(p + 1 / 2 * Lk) / cs + d1 / cs⌋ - ⌊(p + 1 / 2 * Lk) / cs⌋, by omega, ?_⟩
  rw [hfl]; ring

/-! ### The stencil counter -/

theorem stencil_one :
    ∀ a ∈ ([-1, 0, 1] : List Int), (⟨a, -1, -1⟩ : Nm) ∈ nmSeq (3 ^ 1) nmStart := by decide

theorem stencil_two :
    ∀ a ∈ ([-1, 0, 1] : List Int), ∀ b ∈ ([-1, 0, 1] : List Int),
      (⟨a, b, -1⟩ : Nm) ∈ nmSeq (3 ^ 2) nmStart := by decide

theorem stencil_three :
    ∀ a ∈ ([-1, 0, 1] : List Int), ∀ b ∈ ([-1, 0, 1] : List Int), ∀ c ∈ ([-1, 0, 1] : List Int),
      (⟨a, b, c⟩ : Nm) ∈ nmSeq (3 ^ 3) nmStart := by decide

theorem stencil_range :
    ∀ d ∈ [1, 2, 3], ∀ nm ∈ nmSeq (3 ^ d) nmStart, ∀ k ∈ [0, 1, 2],
      nm.get k = -1 ∨ nm.get k = 0 ∨ nm.get k = 1 := by decide

theorem mem_offsets {a : Int} (h : a = -1 ∨ a = 0 ∨ a = 1) : a ∈ ([-1, 0, 1] : List Int) := by
  rcases h with rfl | rfl | rfl <;> simp

theorem stencil_exists (dim : Nat) (hdim : dim = 1 ∨ dim = 2 ∨ dim = 3) (δ : Nat → Int)
    (hδ : ∀ k, k < dim → δ k = -1 ∨ δ k = 0 ∨ δ k = 1) :
    ∃ nm ∈ nmSeq (3 ^ dim) nmStart, ∀ k, k < dim → nm.get k = δ k := by
  rcases hdim with rfl | rfl | rfl
  · refine ⟨⟨δ 0, -1, -1⟩, stencil_one _ (mem_offsets (hδ 0 (by omega))), ?_⟩
    intro k hk
    obtain rfl : k = 0 := by omega
    rfl
  · refine ⟨⟨δ 0, δ 1, -1⟩,
      stencil_two _ (mem_offsets (hδ 0 (by omega))) _ (mem_offsets (hδ 1 (by omega))), ?_⟩
    intro k hk
    have : k = 0 ∨ k = 1 := by omega
    rcases this with rfl | rfl <;> rfl
  · refine ⟨⟨δ 0, δ 1, δ 2⟩,
      stencil_three _ (mem_offsets (hδ 0 (by omega))) _ (mem_offsets (hδ 1 (by omega))) _
        (mem_offsets (hδ 2 (by omega))), ?_⟩
    intro k hk
    have : k = 0 ∨ k = 1 ∨ k = 2 := by omega
    rcases this with rfl | rfl | rfl <;> rfl

theorem stencil_get (dim : Nat) (hdim : dim = 1 ∨ dim = 2 ∨ dim = 3) (nm : Nm)
    (hnm : nm ∈ nmSeq (3 ^ dim) nmStart) (k : Nat) (hk : k < dim) :
    nm.get k = -1 ∨ nm.get k = 0 ∨ nm.get k = 1 := by
  have hd : dim ∈ [1, 2, 3] := by rcases hdim with rfl | rfl | rfl <;> simp
  have hk3 : k ∈ [0, 1, 2] := by
    have : k = 0 ∨ k = 1 ∨ k = 2 := by rcases hdim with rfl | rfl | rfl <;> omega
    rcases this with rfl | rfl | rfl <;> simp
  exact stencil_range dim hd nm hnm k hk3

/-! ### Every access is in range when the particles are in the box -/

theorem cellOfBuild_eq (g : Grid) (hg : axisOk g) (hb : inBox g) (i : Nat) (hi : i < g.N) :
    cellOfBuild g i = flatIndex g.n (cellCoord g.dim g.L g.cellsize g.pos i) g.dim := by
  unfold cellOfBuild
  rw [cellIndex_eq]
  exact flatIndex_congr _ _ _ _ fun k hk => cellCoordBuild_eq g hg hb i hi k hk

theorem gridDefined_of_inBox (g : Grid) (hdim : g.dim = 1 ∨ g.dim = 2 ∨ g.dim = 3)
    (hnc : g.ncells = ncellsOf g.n g.dim) (hg : axisOk g) (hb : inBox g) : gridDefined g := by
  constructor
  · intro i hi
    have hi1 : i < g.N := List.mem_range.1 hi
    unfold inRange
    rw [cellOfBuild_eq g hg hb i hi1, hnc]
    exact flatIndex_bounds _ _ _ fun k hk => cellCoord_range g hg hb i hi1 k hk
  · intro i hi x hx
    have hi1 : i < g.N := List.mem_range.1 hi
    unfold inRange neighbourIndex
    rw [cellIndex_eq, hnc]
    refine flatIndex_bounds _ _ _ fun k hk => ?_
    obtain ⟨h0, h1⟩ := cellCoord_range g hg hb i hi1 k hk
    exact neighbourCoord_range _ _ _ _ h0 h1 (stencil_get g.dim hdim x hx k hk)

/-! ### A close pair is met by the stencil -/

theorem imageDisplacement_split (g : Grid) (i j k : Nat) :
    ∃ m : Int, posAt g.dim g.pos j k - posAt g.dim g.pos i k
      = imageDisplacement g i j k + m * g.L k := by
  unfold imageDisplacement
  split
  · exact ⟨⌊(posAt g.dim g.pos j k - posAt g.dim g.pos i k) / g.L k + 1 / 2⌋, by ring⟩
  · exact ⟨0, by simp⟩

theorem imageDisplacement_le (g : Grid) (hRc : 0 ≤ g.Rc) (i j : Nat)
    (h : imageDist2 g i j ≤ g.Rc ^ 2) (k : Nat) (hk : k < g.dim) :
    |imageDisplacement g i j k| ≤ g.Rc := by
  apply abs_le_of_sq_le_sq _ hRc
  refine le_trans ?_ h
  unfold imageDist2
  exact Finset.single_le_sum (f := fun k => imageDisplacement g i j k ^ 2)
    (fun k _ => sq_nonneg _) (Finset.mem_range.2 hk)

theorem close_pair_visited (g : Grid) (hdim : g.dim = 1 ∨ g.dim = 2 ∨ g.dim = 3)
    (hg : axisOk g) (hb : inBox g) (i j : Nat) (hi : i < g.N) (hj : j < g.N)
    (hclose : imageDist2 g i j ≤ g.Rc ^ 2) :
    ∃ x ∈ nmSeq (3 ^ g.dim) nmStart, cellOfBuild g j = neighbourIndex g i x := by
  have hax : ∀ k, k < g.dim → ∃ δ : Int, (δ = -1 ∨ δ = 0 ∨ δ = 1) ∧ ∀ nm : Nm, nm.get k = δ →
      neighbourCoord g.n (cellCoord g.dim g.L g.cellsize g.pos i) nm k
        = cellCoord g.dim g.L g.cellsize g.pos j k := by
    intro k hk
    obtain ⟨m, hm⟩ := imageDisplacement_split g i j k
    obtain ⟨_, hcs, hn⟩ := hg.2 k hk
    have hcs0 : 0 < g.cellsize k := lt_of_lt_of_le hg.1 hcs
    have hd1 := le_trans (imageDisplacement_le g hg.1.le i j hclose k hk) hcs
    obtain ⟨δ, hδ, hfl⟩ := axis_shift (g.L k) (g.cellsize k) (posAt g.dim g.pos i k)
      (posAt g.dim g.pos j k) _ (g.n k) m hcs0 hn hm hd1
    refine ⟨δ, hδ, fun nm hnm => ?_⟩
    obtain ⟨hi0, hi1⟩ := cellCoord_range g hg hb i hi k hk
    obtain ⟨hj0, hj1⟩ := cellCoord_range g hg hb j hj k hk
    have hfl1 : cellCoord g.dim g.L g.cellsize g.pos i k + δ
        = cellCoord g.dim g.L g.cellsize g.pos j k - m * g.n k := hfl
    exact neighbourCoord_eq _ _ _ _ _ m (by rw [hnm]; exact hfl1) hj0 hj1
      (by rw [hnm]; omega) (by rw [hnm]; omega)
  choose! δ hδ hnb using hax
  obtain ⟨x, hx, hxk⟩ := stencil_exists g.dim hdim δ (fun k hk => hδ k hk)
  refine ⟨x, hx, ?_⟩
  rw [cellOfBuild_eq g hg hb j hj]
  unfold neighbourIndex
  rw [cellIndex_eq]
  exact flatIndex_congr _ _ _ _ fun k hk => (hnb k hk x (hxk k hk)).symm

theorem minimage_sq_symm (d L : ℚ) :
    (d - (⌊d / L + 1 / 2⌋ : Int) * L) ^ 2 = (-d - (⌊-d / L + 1 / 2⌋ : Int) * L) ^ 2 := by
  have h1 := Int.floor_le (d / L + 1 / 2)
  have h2 := Int.lt_floor_add_one (d / L + 1 / 2)
  rcases eq_or_lt_of_le h1 with he | hlt
  · have hL : L ≠ 0 := by
      intro h0
      rw [h0, div_zero, zero_add] at he
      have h3 : (2 : ℚ) * (⌊(0 : ℚ) / 0 + 1 / 2⌋ : Int) = 1 := by
        rw [div_zero, zero_add]; linarith
      have h4 : (2 : Int) * ⌊(0 : ℚ) / 0 + 1 / 2⌋ = 1 := by exact_mod_cast h3
      omega
    have hfl : ⌊-d / L + 1 / 2⌋ = 1 - ⌊d / L + 1 / 2⌋ := by
      rw [Int.floor_eq_iff]
      push_cast
      rw [neg_div]
      constructor <;> linarith
    have hd : d = ((⌊d / L + 1 / 2⌋ : Int) - 1 / 2) * L := by
      field_simp
      have : d / L = (⌊d / L + 1 / 2⌋ : Int) - 1 / 2 := by linarith
      field_simp at this
      linarith
    rw [hfl]
    push_cast
    generalize (⌊d / L + 1 / 2⌋ : Int) = m at hd
    rw [hd]
    ring
  · have hfl : ⌊-d / L + 1 / 2⌋ = -⌊d / L + 1 / 2⌋ := by
      rw [Int.floor_eq_iff]
      push_cast
      rw [neg_div]
      constructor <;> linarith
    rw [hfl]
    push_cast
    ring

theorem imageDist2_symm (g : Grid) (i j : Nat) : imageDist2 g i j = imageDist2 g j i := by
  unfold imageDist2
  refine Finset.sum_congr rfl fun k _ => ?_
  unfold imageDisplacement
  split
  · have := minimage_sq_symm (posAt g.dim g.pos j k - posAt g.dim g.pos i k) (g.L k)
    rw [this]
    have e : -(posAt g.dim g.pos j k - posAt g.dim g.pos i k)
        = posAt g.dim g.pos i k - posAt g.dim g.pos j k := by ring
    rw [e]
  · ring

/-! ### The scenario of the specification -/

theorem scenario_read : readEnd 3 1 (vec [-1]) scenarioLines = some scenarioState := rfl

theorem scenario_run :
    elastic_network 3 (3 / 2) 10 (vec [-1]) (some scenarioLines) 1 0
      = some ⟨2, [⟨1, 0, 10, 1⟩, ⟨2, 1, 10, 1⟩]⟩ := by
  with_unfolding_all decide

theorem scenario_inBox : inBox (gridOf 3 (3 / 2) 10 (vec [-1]) 1 0 scenarioState) := by
  intro i hi k hk
  have hi3 : i < 3 := hi
  have hk1 : k < 1 := hk
  obtain rfl : k = 0 := by omega
  have : i = 0 ∨ i = 1 ∨ i = 2 := by omega
  rcases this with rfl | rfl | rfl <;> with_unfolding_all decide

/-! ### Properties of `elastic_network` -/

/-- Completeness in exact arithmetic (`elastic_network`, no rounding, the
stores of line 167 beyond `rij[dim]` without effect).  For `dim ∈ {1,2,3}` and
`Rc > 0`, when the position file holds at least `N` valid rows (the stored positions are its first `N`
valid rows, `stored_rows`) and every stored coordinate lies in
`[-L[k]/2, L[k]/2)` of the finalized box, the run returns a result whose
output holds, for every pair `i ≠ j` of particles whose squared distance
(minimum image on periodic axes, raw difference on open axes) is at most
`Rc²`, the record `(offset + max i j, offset + min i j, K, r²)`; a pair at
distance exactly `Rc` is included. -/
theorem completeness_exact (N : Nat) (Rc K : ℚ) (L : Nat → ℚ) (lines : List (List ℚ)) (dim : Nat)
    (offset : Int) (st : ReadState) (hdim : dim = 1 ∨ dim = 2 ∨ dim = 3) (hRc : 0 < Rc)
    (hrows : N ≤ (lines.filter (validRow dim)).length)
    (hread : readEnd N dim L lines = some st)
    (hbox : inBox (gridOf N Rc K L dim offset st)) :
    ∃ res, elastic_network N Rc K L (some lines) dim offset = some res ∧
      res.ret = (res.out.length : Int) ∧
      ∀ i j, i < N → j < N → i ≠ j →
        imageDist2 (gridOf N Rc K L dim offset st) i j ≤ Rc ^ 2 →
        (⟨offset + (max i j : Nat), offset + (min i j : Nat), K,
          imageDist2 (gridOf N Rc K L dim offset st) i j⟩ : Bond) ∈ res.out := by
  have hN : N ≤ st.i :=
    readLoop_full N dim _ lines (readStart L) st hread (by simpa [readStart] using hrows)
  have hg := gridOf_axisOk N Rc K L dim offset st hRc
  have hdef := gridDefined_of_inBox (gridOf N Rc K L dim offset st) hdim rfl hg hbox
  have hrc : ¬ (0 < dim ∧ Rc = 0) := fun h => (ne_of_gt hRc) h.2
  refine ⟨_, (elastic_network_iff N Rc K L lines dim offset _).2
    (Or.inr ⟨st, hread, Or.inr ⟨hN, hrc, hdef, rfl⟩⟩), rfl, ?_⟩
  have hd3 : (gridOf N Rc K L dim offset st).dim ≤ 3 := by
    show dim ≤ 3
    rcases hdim with rfl | rfl | rfl <;> omega
  have key : ∀ i j, j < i → i < N →
      imageDist2 (gridOf N Rc K L dim offset st) i j ≤ Rc ^ 2 →
      (⟨offset + (i : Nat), offset + (j : Nat), K,
        imageDist2 (gridOf N Rc K L dim offset st) i j⟩ : Bond)
        ∈ bondList (gridOf N Rc K L dim offset st) := by
    intro i j hji hi hclose
    have hj : j < N := lt_trans hji hi
    refine mem_bondList.2 ⟨i, j, hji, hi, hj,
      close_pair_visited _ hdim hg hbox i j hi hj hclose, ?_, ?_⟩
    · rw [pairDist2_eq _ i j hd3]
      simp only [withinCutoff, decide_eq_true_eq]
      have hsq : Rc ^ 2 = Rc * Rc := by ring
      exact ⟨hRc.le, le_of_le_of_eq hclose hsq⟩
    · simp only [bondOf]
      rw [pairDist2_eq _ i j hd3]
      rfl
  intro i j hi hj hne hclose
  rcases Nat.lt_or_gt_of_ne hne with h | h
  · rw [max_eq_right h.le, min_eq_left h.le, imageDist2_symm]
    exact key j i h hj (by rw [imageDist2_symm]; exact hclose)
  · rw [max_eq_left h.le, min_eq_right h.le]
    exact key i j h hi hclose

/-- In exact arithmetic, on the scenario `D = 1`, `N = 3`, positions `[0, 1, 2]`, `Rc = 1.5`,
`L = [-1]`, `K = 10`: the run yields exactly the bonds `(1,0,10,1)` and
`(2,1,10,1)` (squared distance 1), and `completeness_exact` applies to it. -/
theorem completeness_exact_witness :
    elastic_network 3 (3 / 2) 10 (vec [-1]) (some scenarioLines) 1 0
        = some ⟨2, [⟨1, 0, 10, 1⟩, ⟨2, 1, 10, 1⟩]⟩ ∧
      ∃ res, elastic_network 3 (3 / 2) 10 (vec [-1]) (some scenarioLines) 1 0 = some res ∧
        res.ret = (res.out.length : Int) ∧
        ∀ i j, i < 3 → j < 3 → i ≠ j →
          imageDist2 (gridOf 3 (3 / 2) 10 (vec [-1]) 1 0 scenarioState) i j ≤ (3 / 2) ^ 2 →
          (⟨0 + (max i j : Nat), 0 + (min i j : Nat), 10,
            imageDist2 (gridOf 3 (3 / 2) 10 (vec [-1]) 1 0 scenarioState) i j⟩ : Bond) ∈ res.out :=
  ⟨scenario_run,
    completeness_exact 3 (3 / 2) 10 (vec [-1]) scenarioLines 1 0 scenarioState (Or.inl rfl)
      (by norm_num) (by decide) scenario_read scenario_inBox⟩

/-- C5 (domain sizing on open axes), at the input `D = 1`, `N = 3`, positions
`[0, 1, 2]`, `L = [-1]`, `Rc = 0.5`: domain sizing ends with `L[0] = 2` (the
update compares `|p|` with `L`, so the particle at 2 does not enlarge the box
that the particle at 1 set to 2), the particle at 2 is stored, and
`|2| ≤ L[0]/2` fails; the builder then indexes `hlist` out of range. -/
theorem open_box_misses_particle :
    finalL 3 1 (1 / 2) (vec [-1]) scenarioLines 0 = some 2 ∧
      storedPos 3 1 (vec [-1]) scenarioLines 2 0 = some 2 ∧
      ¬ (|(2 : ℚ)| ≤ 2 / 2) ∧
      elastic_network 3 (1 / 2) 10 (vec [-1]) (some scenarioLines) 1 0 = none := by
  refine ⟨?_, ?_, ?_, ?_⟩ <;> with_unfolding_all decide

/-- The grid invariant in exact arithmetic (`enforceMin`, `cellCount`,
`cellSize`).  For `Rc > 0`, once domain sizing is over every axis
`k < dim` has `L[k] ≥ 3·Rc`, `n[k] = ⌊L[k]/Rc⌋ ≥ 3` and
`cellsize[k] = L[k]/n[k] ≥ Rc`; the axis is flagged periodic iff its supplied
length is positive, and a supplied periodic length that is already `≥ 3·Rc` is
left unchanged. -/
theorem grid_invariant_exact (N dim : Nat) (Rc : ℚ) (L : Nat → ℚ) (lines : List (List ℚ))
    (st : ReadState) (k : Nat) (hRc : 0 < Rc) (hread : readEnd N dim L lines = some st)
    (hk : k < dim) :
    3 * Rc ≤ enforceMin dim Rc st.L k ∧
      3 ≤ cellCount Rc (enforceMin dim Rc st.L) k ∧
      Rc ≤ cellSize Rc (enforceMin dim Rc st.L) k ∧
      (periodicInit dim L k = true ↔ 0 < L k) ∧
      (0 < L k → 3 * Rc ≤ L k → enforceMin dim Rc st.L k = L k) := by
  have h3 := enforceMin_ge dim Rc st.L k hk
  obtain ⟨hn, hcs, _⟩ := grid_axis Rc hRc (enforceMin dim Rc st.L) k h3
  refine ⟨h3, hn, hcs, ?_, ?_⟩
  · simp [periodicInit, hk]
  · intro hpos hbig
    have hper : periodicInit dim L k = true := by simp [periodicInit, hk, hpos]
    have hL : st.L k = L k := readLoop_periodic N dim _ k hper lines (readStart L) st hread
    unfold enforceMin
    rw [hL, if_neg (fun hh => absurd hh.2 (not_lt.2 hbig))]

/-- In exact arithmetic on the scenario (`Rc = 1.5`, open axis): the finalized length is at
least `4.5`, with at least three cells at least `1.5` wide. -/
theorem grid_invariant_exact_witness :
    (0 : ℚ) < 3 / 2 ∧ readEnd 3 1 (vec [-1]) scenarioLines = some scenarioState ∧ 0 < 1 ∧
      3 * (3 / 2) ≤ enforceMin 1 (3 / 2) scenarioState.L 0 ∧
      3 ≤ cellCount (3 / 2) (enforceMin 1 (3 / 2) scenarioState.L) 0 ∧
      (3 / 2 : ℚ) ≤ cellSize (3 / 2) (enforceMin 1 (3 / 2) scenarioState.L) 0 ∧
      (periodicInit 1 (vec [-1]) 0 = true ↔ 0 < vec [-1] 0) ∧
      (0 < vec [-1] 0 → 3 * (3 / 2) ≤ vec [-1] 0 →
        enforceMin 1 (3 / 2) scenarioState.L 0 = vec [-1] 0) :=
  ⟨by norm_num, scenario_read, by decide,
    grid_invariant_exact 3 1 (3 / 2) (vec [-1]) scenarioLines scenarioState 0 (by norm_num)
      scenario_read (by decide)⟩

/-- C7 (short input is fatal).  For `dim ∈ {1,2,3}` and `N ≥ 1`, when the
position file holds fewer than `N` valid rows the run returns `-1` and writes
no bond record. -/
theorem short_input_fatal (N dim : Nat) (Rc K : ℚ) (L : Nat → ℚ) (lines : List (List ℚ))
    (offset : Int) (hdim : dim = 1 ∨ dim = 2 ∨ dim = 3) (_hN : 1 ≤ N)
    (hshort : (lines.filter (validRow dim)).length < N) :
    elastic_network N Rc K L (some lines) dim offset = some ⟨-1, []⟩ := by
  obtain ⟨st, hst⟩ := readLoop_some N dim (periodicInit dim L) hdim lines (readStart L)
  have hc := readLoop_count N dim _ lines (readStart L) st hst
  have hi : st.i < N := by
    simp only [readStart, zero_add] at hc
    omega
  exact (elastic_network_iff N Rc K L lines dim offset _).2
    (Or.inr ⟨st, hst, Or.inl ⟨hi, rfl⟩⟩)

/-- C7 on `N = 5` declared and three valid rows among five lines, in three
dimensions. -/
theorem short_input_fatal_witness :
    (3 = 1 ∨ 3 = 2 ∨ 3 = 3) ∧ 1 ≤ 5 ∧
      (([[1, 2, 3], [1, 2], [], [3, 4, 5], [0, 0, 0, 0]] : List (List ℚ)).filter
        (validRow 3)).length < 5 ∧
      elastic_network 5 1 7 (vec [-1, -1, -1])
        (some [[1, 2, 3], [1, 2], [], [3, 4, 5], [0, 0, 0, 0]]) 3 0 = some ⟨-1, []⟩ :=
  ⟨by decide, by decide, by decide,
    short_input_fatal 5 3 1 7 (vec [-1, -1, -1]) [[1, 2, 3], [1, 2], [], [3, 4, 5], [0, 0, 0, 0]]
      0 (by decide) (by decide) (by decide)⟩

/-- C8 (invalid dimensionality), at the input `D = 4`, `N = 0`, an empty position
file, `Rc = 1`: no line is read, so the `default:` branch that rejects the
dimensionality is never reached, and the run returns `0`, not `-1`. -/
theorem invalid_dim_unchecked_without_lines :
    elastic_network 0 1 10 (vec [-1, -1, -1, -1]) (some []) 4 0 = some ⟨0, []⟩ := by
  with_unfolding_all decide

/-- C9 (return value).  A run that does not return `-1` returns a non-negative
integer equal to the number of bond records it wrote. -/
theorem return_value_counts_bonds (N : Nat) (Rc K : ℚ) (L : Nat → ℚ)
    (positions : Option (List (List ℚ))) (dim : Nat) (offset : Int) (res : Result)
    (h : elastic_network N Rc K L positions dim offset = some res) (hok : res.ret ≠ -1) :
    0 ≤ res.ret ∧ res.ret = (res.out.length : Int) := by
  rcases run_cases N Rc K L positions dim offset res h with h1 | ⟨_, st, _, _, _, _, _, hres⟩
  · rw [h1] at hok
    exact absurd rfl hok
  · rw [hres]
    exact ⟨Int.natCast_nonneg _, rfl⟩

/-- C9 on the scenario: the run returns 2 and writes two records. -/
theorem return_value_counts_bonds_witness :
    elastic_network 3 (3 / 2) 10 (vec [-1]) (some scenarioLines) 1 0
        = some ⟨2, [⟨1, 0, 10, 1⟩, ⟨2, 1, 10, 1⟩]⟩ ∧
      (2 : Int) ≠ -1 ∧ (0 : Int) ≤ 2 ∧
      (2 : Int) = (([⟨1, 0, 10, 1⟩, ⟨2, 1, 10, 1⟩] : List Bond).length : Int) :=
  ⟨scenario_run, by decide,
    return_value_counts_bonds 3 (3 / 2) 10 (vec [-1]) (some scenarioLines) 1 0 _ scenario_run
      (by decide)⟩

/-- C10 (bond record shape).  Every record written by a run is
`(offset + i, offset + j, K, r)` with `0 ≤ j < i < N`: its two indices are
distinct, lie in `[offset, offset + N)`, the first is strictly greater than the
second, and its third field is the supplied `K`. -/
theorem bond_record_shape (N : Nat) (Rc K : ℚ) (L : Nat → ℚ)
    (positions : Option (List (List ℚ))) (dim : Nat) (offset : Int) (res : Result)
    (h : elastic_network N Rc K L positions dim offset = some res) (b : Bond)
    (hb : b ∈ res.out) :
    (∃ i j : Nat, j < i ∧ i < N ∧ b.i = offset + (i : Nat) ∧ b.j = offset + (j : Nat)) ∧
      b.K = K ∧ b.i ≠ b.j ∧ offset ≤ b.j ∧ b.j < b.i ∧ b.i < offset + (N : Nat) := by
  obtain ⟨_, st, _, _, _, _, _, _, i, j, hji, hi, _, hbe⟩ :=
    run_bond N Rc K L positions dim offset res h b hb
  have hbi : b.i = offset + (i : Nat) := by rw [hbe]; rfl
  have hbj : b.j = offset + (j : Nat) := by rw [hbe]; rfl
  have hbK : b.K = K := by rw [hbe]; rfl
  refine ⟨⟨i, j, hji, hi, hbi, hbj⟩, hbK, ?_, ?_, ?_, ?_⟩ <;> omega

/-- C10 on the scenario with `offset = 0`: the record `(1, 0, 10, 1)`. -/
theorem bond_record_shape_witness :
    elastic_network 3 (3 / 2) 10 (vec [-1]) (some scenarioLines) 1 0
        = some ⟨2, [⟨1, 0, 10, 1⟩, ⟨2, 1, 10, 1⟩]⟩ ∧
      (⟨1, 0, 10, 1⟩ : Bond) ∈ [(⟨1, 0, 10, 1⟩ : Bond), ⟨2, 1, 10, 1⟩] ∧
      ((∃ i j : Nat, j < i ∧ i < 3 ∧ (⟨1, 0, 10, 1⟩ : Bond).i = 0 + (i : Nat) ∧
          (⟨1, 0, 10, 1⟩ : Bond).j = 0 + (j : Nat)) ∧
        (⟨1, 0, 10, 1⟩ : Bond).K = 10 ∧ (⟨1, 0, 10, 1⟩ : Bond).i ≠ (⟨1, 0, 10, 1⟩ : Bond).j ∧
        (0 : Int) ≤ (⟨1, 0, 10, 1⟩ : Bond).j ∧
        (⟨1, 0, 10, 1⟩ : Bond).j < (⟨1, 0, 10, 1⟩ : Bond).i ∧
        (⟨1, 0, 10, 1⟩ : Bond).i < 0 + ((3 : Nat) : Int)) :=
  ⟨scenario_run, by simp,
    bond_record_shape 3 (3 / 2) 10 (vec [-1]) (some scenarioLines) 1 0 _ scenario_run
      ⟨1, 0, 10, 1⟩ (by simp)⟩

/-! ### No pair is written twice -/

set_option maxRecDepth 100000 in
theorem stencil_distinct :
    ∀ d ∈ [1, 2, 3], (nmSeq (3 ^ d) nmStart).Pairwise
      (fun a b => ∃ k ∈ List.range d, a.get k ≠ b.get k) := by decide

theorem ncellsOf_pos (n : Nat → Int) :
    ∀ d : Nat, (∀ k, k < d → 3 ≤ n k) → 0 < ncellsOf n d
  | 0, _ => by simp [ncellsOf]
  | d + 1, h => by
    rw [ncellsOf]
    have h1 := ncellsOf_pos n d (fun k hk => h k (Nat.lt_succ_of_lt hk))
    have h2 := h d (Nat.lt_succ_self d)
    exact mul_pos h1 (by omega)

theorem neighbourCoord_mod (n c : Nat → Int) (nm : Nm) (k : Nat) :
    ∃ e : Int, neighbourCoord n c nm k = c k + nm.get k + e * n k := by
  unfold neighbourCoord
  simp only []
  split_ifs
  · exact ⟨0, by ring⟩
  · exact ⟨1, by ring⟩
  · exact ⟨-1, by ring⟩
  · exact ⟨0, by ring⟩

theorem neighbourCoord_congr (n c : Nat → Int) (a b : Nm) (k : Nat) (h : a.get k = b.get k) :
    neighbourCoord n c a k = neighbourCoord n c b k := by
  unfold neighbourCoord
  rw [h]

theorem offset_eq_of_multiple (n x y t : Int) (hn : 3 ≤ n)
    (hx : x = -1 ∨ x = 0 ∨ x = 1) (hy : y = -1 ∨ y = 0 ∨ y = 1) (h : x - y = t * n) : x = y := by
  have ht : t = 0 := by
    by_contra hne
    rcases lt_or_gt_of_ne hne with hlt | hgt
    · have : t ≤ -1 := by omega
      have : t * n ≤ -1 * n := mul_le_mul_of_nonneg_right this (by omega)
      rcases hx with rfl | rfl | rfl <;> rcases hy with rfl | rfl | rfl <;> omega
    · have : 1 ≤ t := by omega
      have : 1 * n ≤ t * n := mul_le_mul_of_nonneg_right this (by omega)
      rcases hx with rfl | rfl | rfl <;> rcases hy with rfl | rfl | rfl <;> omega
  rw [ht, zero_mul] at h
  omega

theorem stencil_index_inj (n c : Nat → Int) (a b : Nm) :
    ∀ d : Nat, (∀ k, k < d → 3 ≤ n k) →
      (∀ k, k < d → a.get k = -1 ∨ a.get k = 0 ∨ a.get k = 1) →
      (∀ k, k < d → b.get k = -1 ∨ b.get k = 0 ∨ b.get k = 1) →
      (∃ t : Int, flatIndex n (neighbourCoord n c a) d - flatIndex n (neighbourCoord n c b) d
        = t * ncellsOf n d) →
      ∀ k, k < d → a.get k = b.get k
  | 0, _, _, _, _ => fun k hk => absurd hk (Nat.not_lt_zero k)
  | d + 1, hn, ha, hb, ⟨t, ht⟩ => by
    have hn1 : ∀ k, k < d → 3 ≤ n k := fun k hk => hn k (Nat.lt_succ_of_lt hk)
    have ih := stencil_index_inj n c a b d hn1 (fun k hk => ha k (Nat.lt_succ_of_lt hk))
      (fun k hk => hb k (Nat.lt_succ_of_lt hk))
    simp only [flatIndex, ncellsOf] at ht
    have hlow : ∀ k, k < d → a.get k = b.get k :=
      ih ⟨t * n d - (neighbourCoord n c a d - neighbourCoord n c b d), by linarith⟩
    have hflat : flatIndex n (neighbourCoord n c a) d = flatIndex n (neighbourCoord n c b) d :=
      flatIndex_congr _ _ _ _ fun k hk => neighbourCoord_congr n c a b k (hlow k hk)
    have hP := ncellsOf_pos n d hn1
    have hw : neighbourCoord n c a d - neighbourCoord n c b d = t * n d := by
      have h1 : (neighbourCoord n c a d - neighbourCoord n c b d) * ncellsOf n d
          = (t * n d) * ncellsOf n d := by rw [hflat] at ht; linarith
      exact mul_right_cancel₀ (ne_of_gt hP) h1
    obtain ⟨ea, hea⟩ := neighbourCoord_mod n c a d
    obtain ⟨eb, heb⟩ := neighbourCoord_mod n c b d
    have hd : a.get d = b.get d :=
      offset_eq_of_multiple (n d) _ _ (t - ea + eb) (hn d (Nat.lt_succ_self d))
        (ha d (Nat.lt_succ_self d)) (hb d (Nat.lt_succ_self d)) (by rw [hea, heb] at hw; linarith)
    intro k hk
    rcases Nat.lt_succ_iff_lt_or_eq.1 hk with h | h
    · exact hlow k h
    · rw [h]; exact hd

theorem members_nodup (cellOf : Nat → Int) (N : Nat) (c : Int) :
    (members cellOf (List.range N) c).Nodup := by
  unfold members
  rw [List.nodup_reverse]
  exact (List.nodup_range N).filter _

theorem mem_chainBonds {g : Grid} {i : Nat} {c : Int} {b : Bond}
    (h : b ∈ (members (cellOfBuild g) (List.range g.N) c).flatMap (pairBond g i)) :
    ∃ j, cellOfBuild g j = c ∧ j < i ∧ b = bondOf g i j := by
  obtain ⟨j, hj, hb⟩ := List.mem_flatMap.1 h
  obtain ⟨hji, _, hbe⟩ := mem_pairBond.1 hb
  exact ⟨j, (mem_members.1 hj).2, hji, hbe⟩

theorem mem_bondsOfParticle {g : Grid} {i : Nat} {b : Bond} (h : b ∈ bondsOfParticle g i) :
    ∃ j, j < i ∧ b = bondOf g i j := by
  obtain ⟨x, _, hb⟩ := List.mem_flatMap.1 h
  obtain ⟨j, _, hji, hbe⟩ := mem_chainBonds hb
  exact ⟨j, hji, hbe⟩

theorem bondList_pairwise (g : Grid) (hdim : g.dim = 1 ∨ g.dim = 2 ∨ g.dim = 3)
    (hn : ∀ k, k < g.dim → 3 ≤ g.n k) :
    (bondList g).Pairwise (fun b c => ¬ (b.i = c.i ∧ b.j = c.j)) := by
  unfold bondList
  rw [List.pairwise_flatMap]
  constructor
  · intro i _
    unfold bondsOfParticle
    rw [List.pairwise_flatMap]
    constructor
    · intro x _
      rw [List.pairwise_flatMap]
      constructor
      · intro j _
        unfold pairBond
        split <;> simp
      · refine (members_nodup _ _ _).imp ?_
        intro j1 j2 hne b1 hb1 b2 hb2 hh
        obtain ⟨_, _, h1⟩ := mem_pairBond.1 hb1
        obtain ⟨_, _, h2⟩ := mem_pairBond.1 hb2
        rw [h1, h2] at hh
        simp only [bondOf] at hh
        exact hne (by omega)
    · have hd : g.dim ∈ [1, 2, 3] := by rcases hdim with h | h | h <;> simp [h]
      refine (stencil_distinct g.dim hd).imp_of_mem ?_
      intro a b ha hb hab b1 hb1 b2 hb2 hh
      obtain ⟨k, hk, hne⟩ := hab
      have hk1 : k < g.dim := List.mem_range.1 hk
      obtain ⟨j1, hc1, _, h1⟩ := mem_chainBonds hb1
      obtain ⟨j2, hc2, _, h2⟩ := mem_chainBonds hb2
      rw [h1, h2] at hh
      simp only [bondOf] at hh
      have hj : j1 = j2 := by omega
      have hidx : neighbourIndex g i a = neighbourIndex g i b := by
        rw [← hc1, ← hc2, hj]
      unfold neighbourIndex at hidx
      rw [cellIndex_eq, cellIndex_eq] at hidx
      exact hne (stencil_index_inj g.n _ a b g.dim hn
        (fun k hk => stencil_get g.dim hdim a ha k hk)
        (fun k hk => stencil_get g.dim hdim b hb k hk)
        ⟨0, by rw [hidx]; ring⟩ k hk1)
  · refine (List.nodup_range g.N).imp ?_
    intro i1 i2 hne b1 hb1 b2 hb2 hh
    obtain ⟨_, _, h1⟩ := mem_bondsOfParticle hb1
    obtain ⟨_, _, h2⟩ := mem_bondsOfParticle hb2
    rw [h1, h2] at hh
    simp only [bondOf] at hh
    exact hne (by omega)

/-- Uniqueness in exact arithmetic (`elastic_network`, where `n[k] ≥ 3`).  For
`dim ∈ {1,2,3}` and `Rc > 0`, the output of a run
never holds two records for the same unordered pair: two records at different
places of the list are neither the same `(i, j)` nor `(i, j)` and `(j, i)`.
The proof uses `n[k] ≥ 3` (the neighbour cells of the stencil have pairwise
distinct indices, `stencil_index_inj`) and the skip of chain members `j ≥ i`. -/
theorem uniqueness_exact (N : Nat) (Rc K : ℚ) (L : Nat → ℚ) (positions : Option (List (List ℚ)))
    (dim : Nat) (offset : Int) (res : Result) (hdim : dim = 1 ∨ dim = 2 ∨ dim = 3)
    (hRc : 0 < Rc) (h : elastic_network N Rc K L positions dim offset = some res) :
    res.out.Pairwise
      (fun b c => ¬ (b.i = c.i ∧ b.j = c.j) ∧ ¬ (b.i = c.j ∧ b.j = c.i)) := by
  rcases run_cases N Rc K L positions dim offset res h with h1 | ⟨_, st, _, _, _, _, _, hres⟩
  · rw [h1]; exact List.Pairwise.nil
  · have hout : res.out = bondList (gridOf N Rc K L dim offset st) := by rw [hres]
    have hg := gridOf_axisOk N Rc K L dim offset st hRc
    have hp := bondList_pairwise (gridOf N Rc K L dim offset st) hdim
      (fun k hk => (hg.2 k hk).1)
    rw [hout]
    refine hp.imp_of_mem ?_
    intro b c hb hc hbc
    refine ⟨hbc, ?_⟩
    rintro ⟨e1, e2⟩
    obtain ⟨i1, j1, hji1, _, _, _, _, hb1⟩ := mem_bondList.1 hb
    obtain ⟨i2, j2, hji2, _, _, _, _, hc1⟩ := mem_bondList.1 hc
    rw [hb1, hc1] at e1 e2
    simp only [bondOf] at e1 e2
    omega

/-- In exact arithmetic on the scenario: its two records are for different
pairs. -/
theorem uniqueness_exact_witness :
    (1 = 1 ∨ 1 = 2 ∨ 1 = 3) ∧ (0 : ℚ) < 3 / 2 ∧
      elastic_network 3 (3 / 2) 10 (vec [-1]) (some scenarioLines) 1 0
        = some ⟨2, [⟨1, 0, 10, 1⟩, ⟨2, 1, 10, 1⟩]⟩ ∧
      ([⟨1, 0, 10, 1⟩, ⟨2, 1, 10, 1⟩] : List Bond).Pairwise
        (fun b c => ¬ (b.i = c.i ∧ b.j = c.j) ∧ ¬ (b.i = c.j ∧ b.j = c.i)) :=
  ⟨by decide, by norm_num, scenario_run,
    uniqueness_exact 3 (3 / 2) 10 (vec [-1]) (some scenarioLines) 1 0 _ (by decide) (by norm_num)
      scenario_run⟩

/-! ### Two particles on one axis -/

theorem read_two (L : Nat → ℚ) (p0 p1 : ℚ) :
    ∃ st, readEnd 2 1 L [[p0], [p1]] = some st ∧ st.i = 2 ∧
      posAt 1 st.pos 0 0 = p0 ∧ posAt 1 st.pos 1 0 = p1 := by
  refine ⟨_, rfl, rfl, ?_, ?_⟩
  · simp [posAt, storeRow, readStart]
  · simp [posAt, storeRow, readStart]

theorem imageDist2_one (g : Grid) (hd : g.dim = 1) (i j : Nat) :
    imageDist2 g i j = imageDisplacement g i j 0 ^ 2 := by
  unfold imageDist2
  rw [hd]
  simp

theorem wrapped_sq (d Lp Rc : ℚ) (hd : |d| < Lp) (hL : 3 * Rc ≤ Lp) (hw : Lp - |d| ≤ Rc) :
    (d - (⌊d / Lp + 1 / 2⌋ : Int) * Lp) ^ 2 = (Lp - |d|) ^ 2 := by
  have hLp : 0 < Lp := lt_of_le_of_lt (abs_nonneg d) hd
  rcases le_or_lt 0 d with h | h
  · rw [abs_of_nonneg h] at hd hw ⊢
    have hfl : ⌊d / Lp + 1 / 2⌋ = 1 := by
      rw [Int.floor_eq_iff]
      push_cast
      constructor
      · have : 1 / 2 ≤ d / Lp := by rw [le_div_iff₀ hLp]; linarith
        linarith
      · have : d / Lp < 1 := by rw [div_lt_iff₀ hLp]; linarith
        linarith
    rw [hfl]; push_cast; ring
  · rw [abs_of_neg h] at hd hw ⊢
    have hfl : ⌊d / Lp + 1 / 2⌋ = -1 := by
      rw [Int.floor_eq_iff]
      push_cast
      constructor
      · have : -1 < d / Lp := by rw [lt_div_iff₀ hLp]; linarith
        linarith
      · have : d / Lp < -(1 / 2) := by rw [div_lt_iff₀ hLp]; linarith
        linarith
    rw [hfl]; push_cast; ring

theorem singleton_of_pairwise (l : List Bond) (b : Bond) (hmem : b ∈ l)
    (hall : ∀ c ∈ l, c = b)
    (hp : l.Pairwise (fun b c => ¬ (b.i = c.i ∧ b.j = c.j))) :
    l = [b] := by
  match l, hmem, hall, hp with
  | [x], _, hall, _ => rw [hall x (by simp)]
  | x :: y :: t, _, hall, hp =>
    have hx := hall x (by simp)
    have hy := hall y (by simp)
    have := (List.pairwise_cons.1 hp).1 y (by simp)
    rw [hx, hy] at this
    exact absurd ⟨rfl, rfl⟩ this

theorem pair_grid (Rc K Lx : ℚ) (offset : Int) (p0 p1 : ℚ) (st : ReadState)
    (hst : readEnd 2 1 (vec [Lx]) [[p0], [p1]] = some st) :
    posAt 1 st.pos 0 0 = p0 ∧ posAt 1 st.pos 1 0 = p1 ∧ 2 ≤ st.i ∧
      ∀ b ∈ bondList (gridOf 2 Rc K (vec [Lx]) 1 offset st),
        withinCutoff Rc (pairDist2 (gridOf 2 Rc K (vec [Lx]) 1 offset st) 1 0) = true ∧
        b = bondOf (gridOf 2 Rc K (vec [Lx]) 1 offset st) 1 0 := by
  obtain ⟨st1, hst1, hi, hp0, hp1⟩ := read_two (vec [Lx]) p0 p1
  rw [hst] at hst1
  obtain rfl : st = st1 := Option.some.inj hst1
  refine ⟨hp0, hp1, by omega, ?_⟩
  intro b hb
  obtain ⟨i, j, hji, hi2, _, _, hw, hbe⟩ := mem_bondList.1 hb
  have hi2a : i < 2 := hi2
  obtain rfl : i = 1 := by omega
  obtain rfl : j = 0 := by omega
  exact ⟨hw, hbe⟩

/-- Periodicity in one dimension in exact arithmetic (`elastic_network`, no
rounding, the stores of line 167 beyond `rij[dim]` without effect).  Two
particles `p0`, `p1` with
`|p0 - p1| > Rc`.  (a) On a periodic axis of supplied length `Lp ≥ 3·Rc`, with
both coordinates in `[-Lp/2, Lp/2)` and `Lp - |p0 - p1| ≤ Rc`, the run returns
1 and writes exactly the record `(offset+1, offset+0, K, Lp - |p0 - p1|)`.
(b) On an open axis (supplied length `Lo ≤ 0`) no run on the same two
positions writes a record. -/
theorem periodic_pair_exact (p0 p1 Lp Lo Rc K : ℚ) (offset : Int) (hfar : Rc < |p0 - p1|)
    (hL : 3 * Rc ≤ Lp) (h0 : -Lp / 2 ≤ p0 ∧ p0 < Lp / 2) (h1 : -Lp / 2 ≤ p1 ∧ p1 < Lp / 2)
    (hwrap : Lp - |p0 - p1| ≤ Rc) (hLo : Lo ≤ 0) :
    elastic_network 2 Rc K (vec [Lp]) (some [[p0], [p1]]) 1 offset
        = some ⟨1, [⟨offset + 1, offset + 0, K, (Lp - |p0 - p1|) ^ 2⟩]⟩ ∧
      (⟨offset + 1, offset + 0, K, (Lp - |p0 - p1|) ^ 2⟩ : Bond).r
        = ((Lp - |p0 - p1| : ℚ) : ℝ) ∧
      ∀ res, elastic_network 2 Rc K (vec [Lo]) (some [[p0], [p1]]) 1 offset = some res →
        res.out = [] := by
  have habs : |p0 - p1| < Lp := by
    rw [abs_lt]; constructor <;> linarith [h0.1, h0.2, h1.1, h1.2]
  have hRc : 0 < Rc := by linarith
  have hLp : 0 < Lp := by linarith
  refine ⟨?_, ?_, ?_⟩
  · obtain ⟨st, hst, hi, _, _⟩ := read_two (vec [Lp]) p0 p1
    obtain ⟨hp0, hp1, hN, hall⟩ := pair_grid Rc K Lp offset p0 p1 st hst
    have hper : periodicInit 1 (vec [Lp]) 0 = true := by simp [periodicInit, vec, hLp]
    have hstL : st.L 0 = Lp := by
      have := readLoop_periodic 2 1 _ 0 hper _ (readStart (vec [Lp])) st hst
      rw [this]; simp [readStart, vec]
    have hgL : (gridOf 2 Rc K (vec [Lp]) 1 offset st).L 0 = Lp := by
      show enforceMin 1 Rc st.L 0 = Lp
      unfold enforceMin
      rw [hstL, if_neg (fun hh => absurd hh.2 (not_lt.2 hL))]
    have hbox : inBox (gridOf 2 Rc K (vec [Lp]) 1 offset st) := by
      intro i hi2 k hk
      have hk1 : k < 1 := hk
      obtain rfl : k = 0 := by omega
      have hi2a : i < 2 := hi2
      have hcase : i = 0 ∨ i = 1 := by omega
      rw [hgL]
      rcases hcase with rfl | rfl
      · show -Lp / 2 ≤ posAt 1 st.pos 0 0 ∧ posAt 1 st.pos 0 0 < Lp / 2
        rw [hp0]; exact h0
      · show -Lp / 2 ≤ posAt 1 st.pos 1 0 ∧ posAt 1 st.pos 1 0 < Lp / 2
        rw [hp1]; exact h1
    have hdist : imageDist2 (gridOf 2 Rc K (vec [Lp]) 1 offset st) 1 0
        = (Lp - |p0 - p1|) ^ 2 := by
      rw [imageDist2_one _ rfl]
      unfold imageDisplacement
      have hper1 : (gridOf 2 Rc K (vec [Lp]) 1 offset st).periodicL 0 = true := hper
      rw [if_pos hper1, hgL]
      show (posAt 1 st.pos 0 0 - posAt 1 st.pos 1 0
        - (⌊(posAt 1 st.pos 0 0 - posAt 1 st.pos 1 0) / Lp + 1 / 2⌋ : Int) * Lp) ^ 2 = _
      rw [hp0, hp1]
      exact wrapped_sq (p0 - p1) Lp Rc habs hL hwrap
    have hg := gridOf_axisOk 2 Rc K (vec [Lp]) 1 offset st hRc
    have hdef := gridDefined_of_inBox _ (Or.inl rfl) rfl hg hbox
    have hrc : ¬ (0 < 1 ∧ Rc = 0) := fun h => (ne_of_gt hRc) h.2
    have hclose : imageDist2 (gridOf 2 Rc K (vec [Lp]) 1 offset st) 1 0 ≤ Rc ^ 2 := by
      rw [hdist]
      have hnn : 0 ≤ Lp - |p0 - p1| := by linarith
      nlinarith
    have hpd := pairDist2_eq (gridOf 2 Rc K (vec [Lp]) 1 offset st) 1 0 (by show 1 ≤ 3; omega)
    have hmem : bondOf (gridOf 2 Rc K (vec [Lp]) 1 offset st) 1 0
        ∈ bondList (gridOf 2 Rc K (vec [Lp]) 1 offset st) := by
      refine mem_bondList.2 ⟨1, 0, by omega, by show 1 < 2; omega, by show 0 < 2; omega,
        close_pair_visited _ (Or.inl rfl) hg hbox 1 0 (by show 1 < 2; omega)
          (by show 0 < 2; omega) hclose, ?_, rfl⟩
      rw [hpd]
      simp only [withinCutoff, decide_eq_true_eq]
      have hsq : Rc ^ 2 = Rc * Rc := by ring
      exact ⟨hRc.le, le_of_le_of_eq hclose hsq⟩
    have hbl := singleton_of_pairwise _ _ hmem (fun c hc => (hall c hc).2)
      (bondList_pairwise _ (Or.inl rfl) (fun k hk => (hg.2 k hk).1))
    have hrun := (elastic_network_iff 2 Rc K (vec [Lp]) [[p0], [p1]] 1 offset _).2
      (Or.inr ⟨st, hst, Or.inr ⟨hN, hrc, hdef, rfl⟩⟩)
    rw [hrun, hbl]
    simp only [bondOf, hpd, hdist, List.length_singleton]
    rfl
  · unfold Bond.r
    simp only []
    have hnn : (0 : ℝ) ≤ ((Lp - |p0 - p1| : ℚ) : ℝ) := by
      have : (0 : ℚ) ≤ Lp - |p0 - p1| := by linarith
      exact_mod_cast this
    rw [Rat.cast_pow, Real.sqrt_sq hnn]
  · intro res hres
    rcases run_cases 2 Rc K (vec [Lo]) _ 1 offset res hres with
      h2 | ⟨lines, st, hp, hst, _, _, _, hout⟩
    · rw [h2]
    · obtain rfl : [[p0], [p1]] = lines := Option.some.inj hp
      obtain ⟨hp0, hp1, _, hall⟩ := pair_grid Rc K Lo offset p0 p1 st hst
      have hnil : bondList (gridOf 2 Rc K (vec [Lo]) 1 offset st) = [] := by
        rw [List.eq_nil_iff_forall_not_mem]
        intro b hb
        obtain ⟨hw, _⟩ := hall b hb
        rw [pairDist2_eq _ 1 0 (by show 1 ≤ 3; omega), imageDist2_one _ rfl] at hw
        have hper : (gridOf 2 Rc K (vec [Lo]) 1 offset st).periodicL 0 = false := by
          show periodicInit 1 (vec [Lo]) 0 = false
          simp [periodicInit, vec, hLo]
        unfold imageDisplacement at hw
        rw [hper] at hw
        simp only [withinCutoff, decide_eq_true_eq] at hw
        have hw2 : (posAt 1 st.pos 0 0 - posAt 1 st.pos 1 0) ^ 2 ≤ Rc ^ 2 := by
          have hsq : Rc ^ 2 = Rc * Rc := by ring
          rw [hsq]
          simpa using hw.2
        rw [hp0, hp1] at hw2
        have := abs_le_of_sq_le_sq hw2 hw.1
        linarith
      rw [hout]
      exact hnil

/-- In exact arithmetic on positions `[-4.9, 4.9]`, `L = [10]`, `Rc = 1`, `K = 7`: the single
bond is `(1, 0, 7, 0.2)` (squared distance `1/25`); with `L = [-1]` the run
writes nothing. -/
theorem periodic_pair_exact_witness :
    (1 : ℚ) < |(-49 / 10 : ℚ) - 49 / 10| ∧ (3 * 1 : ℚ) ≤ 10 ∧
      ((-10 / 2 : ℚ) ≤ -49 / 10 ∧ (-49 / 10 : ℚ) < 10 / 2) ∧
      ((-10 / 2 : ℚ) ≤ 49 / 10 ∧ (49 / 10 : ℚ) < 10 / 2) ∧
      (10 - |(-49 / 10 : ℚ) - 49 / 10| ≤ 1) ∧ ((-1 : ℚ) ≤ 0) ∧
      elastic_network 2 1 7 (vec [10]) (some [[-49 / 10], [49 / 10]]) 1 0
        = some ⟨1, [⟨1, 0, 7, 1 / 25⟩]⟩ ∧
      elastic_network 2 1 7 (vec [-1]) (some [[-49 / 10], [49 / 10]]) 1 0 = some ⟨0, []⟩ ∧
      (elastic_network 2 1 7 (vec [10]) (some [[-49 / 10], [49 / 10]]) 1 0
          = some ⟨1, [⟨0 + 1, 0 + 0, 7, (10 - |(-49 / 10 : ℚ) - 49 / 10|) ^ 2⟩]⟩ ∧
        (⟨0 + 1, 0 + 0, 7, (10 - |(-49 / 10 : ℚ) - 49 / 10|) ^ 2⟩ : Bond).r
          = ((10 - |(-49 / 10 : ℚ) - 49 / 10| : ℚ) : ℝ) ∧
        ∀ res, elastic_network 2 1 7 (vec [-1]) (some [[-49 / 10], [49 / 10]]) 1 0 = some res →
          res.out = []) :=
  ⟨by with_unfolding_all decide, by norm_num, by norm_num, by norm_num,
    by with_unfolding_all decide, by norm_num, by with_unfolding_all decide,
    by with_unfolding_all decide,
    periodic_pair_exact (-49 / 10) (49 / 10) 10 (-1) 1 7 0 (by with_unfolding_all decide)
      (by norm_num) (by norm_num) (by norm_num) (by with_unfolding_all decide) (by norm_num)⟩

/-! ### The chains of the bucket structure -/

theorem chainWalk_chain (ll : Int → Int) :
    ∀ (xs : List Nat) (fuel : Nat) (h : Int), IsChain ll h xs → xs.length < fuel →
      chainWalk ll fuel h = some (xs.map Int.ofNat)
  | [], fuel, h, hc, hf => by
    obtain ⟨f, rfl⟩ : ∃ f, fuel = f + 1 := ⟨fuel - 1, by simp at hf; omega⟩
    simp only [IsChain] at hc
    subst hc
    simp [chainWalk]
  | x :: xs, fuel, h, hc, hf => by
    obtain ⟨f, rfl⟩ : ∃ f, fuel = f + 1 := ⟨fuel - 1, by simp at hf; omega⟩
    obtain ⟨hx, hrest⟩ := hc
    subst hx
    have hlen : xs.length < f := by simp at hf; omega
    have hnn : ¬ ((x : Int) < 0) := by omega
    rw [chainWalk, if_neg hnn, chainWalk_chain ll xs f _ hrest hlen]
    rfl

theorem buildLoop_range (cellOf : Nat → Int) (ncells : Int) (N : Nat)
    (hidx : ∀ i, i < N → 0 ≤ cellOf i ∧ cellOf i < ncells) :
    ∃ b, buildLoop cellOf ncells (List.range N) emptyBuckets = some b ∧
      ∀ c, IsChain b.llist (b.hlist c) (members cellOf (List.range N) c) := by
  obtain ⟨b, hb⟩ := (buildLoop_some_iff cellOf ncells (List.range N) emptyBuckets).2
    (fun i hi => hidx i (List.mem_range.1 hi))
  refine ⟨b, hb, ?_⟩
  have := buildLoop_chain cellOf ncells (List.range N) [] emptyBuckets b
    (by simpa using List.nodup_range N) (emptyBuckets_chain cellOf) hb
  simpa using this

/-- C11 (bucket structure partition).  When every particle's flattened cell
index lies in `[0, ncells)`, the build loop ends, and for every cell `c` the walk
from `hlist[c]` along `llist` reaches `-1` after visiting exactly the particles
`j < N` whose flattened cell index is `c`, each once (last inserted first); so
every particle index in `[0, N)` occurs in the chain of exactly one cell. -/
theorem bucket_partition (cellOf : Nat → Int) (ncells : Int) (N : Nat)
    (hidx : ∀ i, i < N → 0 ≤ cellOf i ∧ cellOf i < ncells) :
    ∃ b, buildLoop cellOf ncells (List.range N) emptyBuckets = some b ∧
      (∀ c, chainWalk b.llist (N + 1) (b.hlist c)
            = some ((members cellOf (List.range N) c).map Int.ofNat) ∧
          (members cellOf (List.range N) c).Nodup ∧
          ∀ j, j ∈ members cellOf (List.range N) c ↔ j < N ∧ cellOf j = c) ∧
      ∀ j, j < N → ∃! c, j ∈ members cellOf (List.range N) c := by
  obtain ⟨b, hb, hch⟩ := buildLoop_range cellOf ncells N hidx
  refine ⟨b, hb, fun c => ⟨?_, members_nodup cellOf N c, fun j => ?_⟩, fun j hj => ?_⟩
  · exact chainWalk_chain b.llist _ (N + 1) _ (hch c)
      (Nat.lt_succ_of_le (members_length_le cellOf N c))
  · rw [mem_members, List.mem_range]
  · refine ⟨cellOf j, mem_members.2 ⟨List.mem_range.2 hj, rfl⟩, fun c hc => ?_⟩
    exact (mem_members.1 hc).2.symm

/-- C11 on three particles in two cells (particle `i` in cell `i mod 2`): cell 0
holds 2 then 0, cell 1 holds 1. -/
theorem bucket_partition_witness :
    (∀ i, i < 3 → (0 : Int) ≤ ((i % 2 : Nat) : Int) ∧ ((i % 2 : Nat) : Int) < 2) ∧
      ∃ b, buildLoop (fun i => ((i % 2 : Nat) : Int)) 2 (List.range 3) emptyBuckets = some b ∧
        (∀ c, chainWalk b.llist (3 + 1) (b.hlist c)
              = some ((members (fun i => ((i % 2 : Nat) : Int)) (List.range 3) c).map Int.ofNat) ∧
            (members (fun i => ((i % 2 : Nat) : Int)) (List.range 3) c).Nodup ∧
            ∀ j, j ∈ members (fun i => ((i % 2 : Nat) : Int)) (List.range 3) c ↔
              j < 3 ∧ (fun i => ((i % 2 : Nat) : Int)) j = c) ∧
        ∀ j, j < 3 → ∃! c, j ∈ members (fun i => ((i % 2 : Nat) : Int)) (List.range 3) c :=
  ⟨by decide, bucket_partition (fun i => ((i % 2 : Nat) : Int)) 2 3 (by decide)⟩

/-! ### The stencil takes every offset once -/

theorem mem_offsetVectors :
    ∀ (d : Nat) (v : List Int),
      v ∈ offsetVectors d ↔ v.length = d ∧ ∀ x ∈ v, x = -1 ∨ x = 0 ∨ x = 1
  | 0, v => by
    simp only [offsetVectors, List.mem_singleton]
    constructor
    · rintro rfl; simp
    · rintro ⟨h, _⟩; exact List.length_eq_zero.1 h
  | d + 1, v => by
    simp only [offsetVectors, List.mem_flatMap, List.mem_map]
    constructor
    · rintro ⟨w, hw, a, ha, rfl⟩
      obtain ⟨hl, hx⟩ := (mem_offsetVectors d w).1 hw
      refine ⟨by simp [hl], ?_⟩
      intro x hx1
      rcases List.mem_cons.1 hx1 with rfl | h
      · simpa using ha
      · exact hx x h
    · rintro ⟨hl, hx⟩
      match v, hl, hx with
      | a :: w, hl, hx =>
        refine ⟨w, (mem_offsetVectors d w).2 ⟨by simpa using hl, fun x h => hx x (by simp [h])⟩,
          a, ?_, rfl⟩
        have := hx a (by simp)
        simpa using this

set_option maxRecDepth 100000 in
theorem stencilVectors_core :
    ∀ d ∈ [1, 2, 3], (stencilVectors d).Nodup ∧
      (∀ v ∈ offsetVectors d, v ∈ stencilVectors d) ∧
      (∀ v ∈ stencilVectors d, v ∈ offsetVectors d) := by decide

/-- C12 (stencil enumeration).  For `D ∈ {1,2,3}`, over the `3^D` iterations of
the neighbour loop the first `D` entries of the counter `nm`, started at
`(-1,-1,-1)`, take every vector of `{-1,0,1}^D` exactly once (the list of the
`3^D` values has no repetition and holds each such vector) and nothing else;
the zero offset is among them. -/
theorem stencil_enumeration (d : Nat) (hd : d = 1 ∨ d = 2 ∨ d = 3) :
    (stencilVectors d).length = 3 ^ d ∧ (stencilVectors d).Nodup ∧
      (∀ v : List Int, v.length = d → (∀ x ∈ v, x = -1 ∨ x = 0 ∨ x = 1) →
        v ∈ stencilVectors d) ∧
      (∀ v ∈ stencilVectors d, v.length = d ∧ ∀ x ∈ v, x = -1 ∨ x = 0 ∨ x = 1) ∧
      List.replicate d 0 ∈ stencilVectors d := by
  have hmem : d ∈ [1, 2, 3] := by rcases hd with rfl | rfl | rfl <;> simp
  obtain ⟨hnd, hall, honly⟩ := stencilVectors_core d hmem
  have hin : ∀ v : List Int, v.length = d → (∀ x ∈ v, x = -1 ∨ x = 0 ∨ x = 1) →
      v ∈ stencilVectors d := fun v hl hx =>
    hall v ((mem_offsetVectors d v).2 ⟨hl, hx⟩)
  refine ⟨?_, hnd, hin, fun v hv => (mem_offsetVectors d v).1 (honly v hv), ?_⟩
  · rcases hd with rfl | rfl | rfl <;> rfl
  · refine hin _ (by simp) ?_
    intro x hx
    exact Or.inr (Or.inl (List.eq_of_mem_replicate hx))

/-- C12 for `D = 2`: nine iterations, the nine vectors of `{-1,0,1}²`. -/
theorem stencil_enumeration_witness :
    (2 = 1 ∨ 2 = 2 ∨ 2 = 3) ∧
      (stencilVectors 2).length = 3 ^ 2 ∧ (stencilVectors 2).Nodup ∧
      (∀ v : List Int, v.length = 2 → (∀ x ∈ v, x = -1 ∨ x = 0 ∨ x = 1) →
        v ∈ stencilVectors 2) ∧
      (∀ v ∈ stencilVectors 2, v.length = 2 ∧ ∀ x ∈ v, x = -1 ∨ x = 0 ∨ x = 1) ∧
      List.replicate 2 0 ∈ stencilVectors 2 :=
  ⟨by decide, stencil_enumeration 2 (by decide)⟩

/-! ### The components touched by the displacement loop -/

theorem displacement_eq_reads (dim : Nat) (pos : Nat → ℚ) (i j k : Nat)
    (hk : k ∈ displacementWrites) :
    displacement dim pos i j k = pos (j * dim + k) - pos (i * dim + k) := by
  have : k < 3 := by simpa [displacementWrites] using hk
  simp [displacement, posAt, this]

/-- C13 (displacement over exactly `D` components), at the input `D = 1`,
`N = 3`, positions `[0, 1, 2]` and the pair `i = 1`, `j = 0`: the loop of line
167 writes `rij[0], rij[1], rij[2]` although `rij` has `D = 1` entry, and reads
the entries 0, 1, 1, 2, 2, 3 of `pos`, the last one beyond its `N·D = 3`
entries; `rij[1]` receives `pos[1][0] - pos[2][0] = -1`, the difference of two
other particles. -/
theorem displacement_touches_three_components :
    displacementWrites = [0, 1, 2] ∧ ¬ (2 < 1) ∧
      displacementReads 1 1 0 = [0, 1, 1, 2, 2, 3] ∧ ¬ (3 < 3 * 1) ∧
      displacement 1 scenarioState.pos 1 0 1
        = posAt 1 scenarioState.pos 1 0 - posAt 1 scenarioState.pos 2 0 ∧
      displacement 1 scenarioState.pos 1 0 1 = -1 := by
  refine ⟨by decide, by decide, by decide, by decide, ?_, ?_⟩
  · simp [displacement, posAt]
  · with_unfolding_all decide

/-! ### Cell coordinates on the closed box -/

theorem cellCoord_range_closed (g : Grid) (hg : axisOk g) (i k : Nat) (hk : k < g.dim)
    (h0 : -(g.L k) / 2 ≤ posAt g.dim g.pos i k) (h1 : posAt g.dim g.pos i k ≤ g.L k / 2) :
    0 ≤ cellCoord g.dim g.L g.cellsize g.pos i k ∧
      cellCoord g.dim g.L g.cellsize g.pos i k ≤ g.n k := by
  obtain ⟨hRc, hax⟩ := hg
  obtain ⟨_, hcs, hn⟩ := hax k hk
  have hcs0 : 0 < g.cellsize k := lt_of_lt_of_le hRc hcs
  unfold cellCoord
  constructor
  · apply Int.floor_nonneg.2
    apply div_nonneg _ hcs0.le
    linarith
  · have h2 : (posAt g.dim g.pos i k + 1 / 2 * g.L k) / g.cellsize k ≤ (g.n k : ℚ) := by
      rw [div_le_iff₀ hcs0, hn]
      linarith
    have h3 := Int.floor_le ((posAt g.dim g.pos i k + 1 / 2 * g.L k) / g.cellsize k)
    have h4 : ((⌊(posAt g.dim g.pos i k + 1 / 2 * g.L k) / g.cellsize k⌋ : Int) : ℚ)
        ≤ (g.n k : ℚ) := le_trans h3 h2
    exact_mod_cast h4

theorem cellCoordBuild_range (g : Grid) (hg : axisOk g) (i k : Nat) (hk : k < g.dim)
    (h0 : -(g.L k) / 2 ≤ posAt g.dim g.pos i k) (h1 : posAt g.dim g.pos i k ≤ g.L k / 2) :
    0 ≤ cellCoordBuild g.dim g.n g.L g.cellsize g.pos i k ∧
      cellCoordBuild g.dim g.n g.L g.cellsize g.pos i k < g.n k := by
  obtain ⟨hc0, hc1⟩ := cellCoord_range_closed g hg i k hk h0 h1
  have hn3 : 3 ≤ g.n k := (hg.2 k hk).1
  unfold cellCoordBuild
  split
  · constructor <;> omega
  · rename_i hne
    exact ⟨hc0, lt_of_le_of_ne hc1 hne⟩

theorem cellOfBuild_range (g : Grid) (hg : axisOk g) (hnc : g.ncells = ncellsOf g.n g.dim)
    (i : Nat)
    (hp : ∀ k, k < g.dim →
      -(g.L k) / 2 ≤ posAt g.dim g.pos i k ∧ posAt g.dim g.pos i k ≤ g.L k / 2) :
    0 ≤ cellOfBuild g i ∧ cellOfBuild g i < g.ncells := by
  unfold cellOfBuild
  rw [cellIndex_eq, hnc]
  exact flatIndex_bounds _ _ _ fun k hk => cellCoordBuild_range g hg i k hk (hp k hk).1 (hp k hk).2

/-- C15 (cell coordinates are in range).  For `Rc > 0` and a particle whose
coordinates satisfy `-L[k]/2 ≤ p_i[k] ≤ L[k]/2` on every axis (finalized `L`),
the builder's cell coordinate `floor((p_i[k] + L[k]/2)/cellsize[k])`, with the
value `n[k]` clamped to 0, lies in `[0, n[k])` on every axis, and the flattened
cell index lies in `[0, ncells)`: the `hlist` access of the build loop is in
bounds. -/
theorem cell_coordinates_in_range (N : Nat) (Rc K : ℚ) (L : Nat → ℚ) (dim : Nat)
    (offset : Int) (st : ReadState) (i : Nat) (hRc : 0 < Rc)
    (hp : ∀ k, k < dim →
      -((gridOf N Rc K L dim offset st).L k) / 2 ≤ posAt dim st.pos i k ∧
        posAt dim st.pos i k ≤ (gridOf N Rc K L dim offset st).L k / 2) :
    (∀ k, k < dim →
        0 ≤ cellCoordBuild dim (gridOf N Rc K L dim offset st).n
              (gridOf N Rc K L dim offset st).L (gridOf N Rc K L dim offset st).cellsize st.pos i k ∧
          cellCoordBuild dim (gridOf N Rc K L dim offset st).n
              (gridOf N Rc K L dim offset st).L (gridOf N Rc K L dim offset st).cellsize st.pos i k
            < (gridOf N Rc K L dim offset st).n k) ∧
      0 ≤ cellOfBuild (gridOf N Rc K L dim offset st) i ∧
      cellOfBuild (gridOf N Rc K L dim offset st) i < (gridOf N Rc K L dim offset st).ncells := by
  have hg := gridOf_axisOk N Rc K L dim offset st hRc
  exact ⟨fun k hk => cellCoordBuild_range _ hg i k hk (hp k hk).1 (hp k hk).2,
    cellOfBuild_range _ hg rfl i hp⟩

/-- C15 on the particle at 2 of `edgeLines` (`Rc = 1`, finalized `L = 4`,
`n = 4`): it sits at exactly `+L/2`, its coordinate 4 is clamped to 0. -/
theorem cell_coordinates_in_range_witness :
    (0 : ℚ) < 1 ∧ posAt 1 edgeState.pos 0 0 = edgeGrid.L 0 / 2 ∧
      cellCoordBuild 1 edgeGrid.n edgeGrid.L edgeGrid.cellsize edgeState.pos 0 0 = 0 ∧
      (∀ k, k < 1 →
        0 ≤ cellCoordBuild 1 (gridOf 2 1 10 (vec [-1]) 1 0 edgeState).n
              (gridOf 2 1 10 (vec [-1]) 1 0 edgeState).L
              (gridOf 2 1 10 (vec [-1]) 1 0 edgeState).cellsize edgeState.pos 0 k ∧
          cellCoordBuild 1 (gridOf 2 1 10 (vec [-1]) 1 0 edgeState).n
              (gridOf 2 1 10 (vec [-1]) 1 0 edgeState).L
              (gridOf 2 1 10 (vec [-1]) 1 0 edgeState).cellsize edgeState.pos 0 k
            < (gridOf 2 1 10 (vec [-1]) 1 0 edgeState).n k) ∧
      0 ≤ cellOfBuild (gridOf 2 1 10 (vec [-1]) 1 0 edgeState) 0 ∧
      cellOfBuild (gridOf 2 1 10 (vec [-1]) 1 0 edgeState) 0
        < (gridOf 2 1 10 (vec [-1]) 1 0 edgeState).ncells :=
  ⟨by norm_num, by with_unfolding_all decide, by with_unfolding_all decide,
    cell_coordinates_in_range 2 1 10 (vec [-1]) 1 0 edgeState 0 (by norm_num) (by
      intro k hk
      obtain rfl : k = 0 := by omega
      with_unfolding_all decide)⟩

/-! ### The minimum image is the nearest periodic copy -/

theorem minimage_minimal {α : Type} [LinearOrderedField α] [FloorRing α] (d L : α)
    (hL : 0 < L) :
    -L / 2 ≤ d - ((⌊d / L + 1 / 2⌋ : Int) : α) * L ∧
      d - ((⌊d / L + 1 / 2⌋ : Int) : α) * L < L / 2 ∧
      ∀ m : Int, |d - ((⌊d / L + 1 / 2⌋ : Int) : α) * L| ≤ |d + (m : α) * L| := by
  have e : (d / L + 1 / 2) * L = d + L / 2 := by
    field_simp
    ring
  have h1 : ((⌊d / L + 1 / 2⌋ : Int) : α) * L ≤ d + L / 2 := by
    rw [← e]
    exact mul_le_mul_of_nonneg_right (Int.floor_le _) hL.le
  have h2 : d + L / 2 < (((⌊d / L + 1 / 2⌋ : Int) : α) + 1) * L := by
    rw [← e]
    exact mul_lt_mul_of_pos_right (Int.lt_floor_add_one _) hL
  have hlo : -L / 2 ≤ d - ((⌊d / L + 1 / 2⌋ : Int) : α) * L := by linarith
  have hhi : d - ((⌊d / L + 1 / 2⌋ : Int) : α) * L < L / 2 := by linarith
  refine ⟨hlo, hhi, fun m => ?_⟩
  have habs : |d - ((⌊d / L + 1 / 2⌋ : Int) : α) * L| ≤ L / 2 :=
    abs_le.2 ⟨by linarith, by linarith⟩
  have hsplit : d + (m : α) * L
      = (d - ((⌊d / L + 1 / 2⌋ : Int) : α) * L) + ((⌊d / L + 1 / 2⌋ + m : Int) : α) * L := by
    push_cast; ring
  rw [hsplit]
  rcases lt_trichotomy (⌊d / L + 1 / 2⌋ + m) 0 with ht | ht | ht
  · have ht1 : ((⌊d / L + 1 / 2⌋ + m : Int) : α) ≤ -1 := by
      have : ⌊d / L + 1 / 2⌋ + m ≤ -1 := by omega
      exact_mod_cast this
    have hmul : ((⌊d / L + 1 / 2⌋ + m : Int) : α) * L ≤ -1 * L :=
      mul_le_mul_of_nonneg_right ht1 hL.le
    have hneg : (d - ((⌊d / L + 1 / 2⌋ : Int) : α) * L)
        + ((⌊d / L + 1 / 2⌋ + m : Int) : α) * L ≤ -(L / 2) := by linarith
    calc |d - ((⌊d / L + 1 / 2⌋ : Int) : α) * L| ≤ L / 2 := habs
      _ ≤ |(d - ((⌊d / L + 1 / 2⌋ : Int) : α) * L)
            + ((⌊d / L + 1 / 2⌋ + m : Int) : α) * L| := by
          rw [le_abs]; right; linarith
  · rw [ht]; simp
  · have ht1 : (1 : α) ≤ ((⌊d / L + 1 / 2⌋ + m : Int) : α) := by
      have : 1 ≤ ⌊d / L + 1 / 2⌋ + m := by omega
      exact_mod_cast this
    have hmul : 1 * L ≤ ((⌊d / L + 1 / 2⌋ + m : Int) : α) * L :=
      mul_le_mul_of_nonneg_right ht1 hL.le
    calc |d - ((⌊d / L + 1 / 2⌋ : Int) : α) * L| ≤ L / 2 := habs
      _ ≤ |(d - ((⌊d / L + 1 / 2⌋ : Int) : α) * L)
            + ((⌊d / L + 1 / 2⌋ + m : Int) : α) * L| := by
          rw [le_abs]; left; linarith

theorem imageDist2_le_copies (g : Grid)
    (hL : ∀ k, k < g.dim → g.periodicL k = true → 0 < g.L k) (i j : Nat) (m : Nat → Int) :
    imageDist2 g i j ≤ ∑ k in Finset.range g.dim,
      (posAt g.dim g.pos j k - posAt g.dim g.pos i k
        + ((if g.periodicL k = true then m k else 0 : Int) : ℚ) * g.L k) ^ 2 := by
  unfold imageDist2
  refine Finset.sum_le_sum fun k hk => ?_
  have hk1 : k < g.dim := Finset.mem_range.1 hk
  unfold imageDisplacement
  by_cases hp : g.periodicL k = true
  · rw [if_pos hp, if_pos hp]
    exact sq_le_sq.2 ((minimage_minimal _ _ (hL k hk1 hp)).2.2 (m k))
  · rw [if_neg hp, if_neg hp]
    simp

/-- C16 (the minimum-image correction is minimal).  On a periodic axis `k` of
length `L[k] > 0`, the corrected component
`d' = d - floor(d/L[k] + 1/2)·L[k]` computed at line 172 satisfies
`-L[k]/2 ≤ d' < L[k]/2`, differs from `d` by an integer multiple of `L[k]`, and
`|d'| ≤ |d + m·L[k]|` for every integer `m`; the same holds for every real `d`
and `L > 0`; and the squared distance of a pair is at most the squared
distance to any periodic copy (integer shifts on the periodic axes). -/
theorem minimum_image_minimal (dim : Nat) (periodicL : Nat → Bool) (L rij : Nat → ℚ) (k : Nat)
    (hk : k < dim) (hper : periodicL k = true) (hL : 0 < L k) :
    (-(L k) / 2 ≤ minimumImage dim periodicL L rij k ∧
        minimumImage dim periodicL L rij k < L k / 2 ∧
        (∃ t : Int, minimumImage dim periodicL L rij k = rij k - (t : ℚ) * L k) ∧
        ∀ m : Int, |minimumImage dim periodicL L rij k| ≤ |rij k + (m : ℚ) * L k|) ∧
      (∀ d Lr : ℝ, 0 < Lr →
        -Lr / 2 ≤ d - ((⌊d / Lr + 1 / 2⌋ : Int) : ℝ) * Lr ∧
          d - ((⌊d / Lr + 1 / 2⌋ : Int) : ℝ) * Lr < Lr / 2 ∧
          ∀ m : Int, |d - ((⌊d / Lr + 1 / 2⌋ : Int) : ℝ) * Lr| ≤ |d + (m : ℝ) * Lr|) ∧
      (∀ (N : Nat) (Rc K : ℚ) (Ls : Nat → ℚ) (d : Nat) (offset : Int) (st : ReadState)
          (i j : Nat) (m : Nat → Int), 0 < Rc →
        imageDist2 (gridOf N Rc K Ls d offset st) i j ≤ ∑ a in Finset.range d,
          (posAt d st.pos j a - posAt d st.pos i a
            + ((if periodicInit d Ls a = true then m a else 0 : Int) : ℚ)
              * (gridOf N Rc K Ls d offset st).L a) ^ 2) := by
  refine ⟨?_, fun d Lr hLr => minimage_minimal d Lr hLr, ?_⟩
  · have hm : minimumImage dim periodicL L rij k
        = rij k - ((⌊rij k / L k + 1 / 2⌋ : Int) : ℚ) * L k := by
      simp [minimumImage, hk, hper]
    rw [hm]
    obtain ⟨h1, h2, h3⟩ := minimage_minimal (rij k) (L k) hL
    exact ⟨h1, h2, ⟨_, rfl⟩, h3⟩
  · intro N Rc K Ls d offset st i j m hRc
    refine imageDist2_le_copies (gridOf N Rc K Ls d offset st) ?_ i j m
    intro a ha _
    have h3 : 3 * Rc ≤ enforceMin d Rc st.L a := enforceMin_ge d Rc st.L a ha
    show 0 < enforceMin d Rc st.L a
    linarith

/-- C16 on `d = 9.8`, `L = 10` (the raw difference of the particles at -4.9 and
4.9): the corrected component is `-0.2`. -/
theorem minimum_image_minimal_witness :
    0 < 1 ∧ (fun _ : Nat => true) 0 = true ∧ (0 : ℚ) < vec [10] 0 ∧
      minimumImage 1 (fun _ => true) (vec [10]) (vec [49 / 5]) 0 = -1 / 5 ∧
      (-(vec [10] 0) / 2 ≤ minimumImage 1 (fun _ => true) (vec [10]) (vec [49 / 5]) 0 ∧
        minimumImage 1 (fun _ => true) (vec [10]) (vec [49 / 5]) 0 < vec [10] 0 / 2 ∧
        (∃ t : Int, minimumImage 1 (fun _ => true) (vec [10]) (vec [49 / 5]) 0
          = vec [49 / 5] 0 - (t : ℚ) * vec [10] 0) ∧
        ∀ m : Int, |minimumImage 1 (fun _ => true) (vec [10]) (vec [49 / 5]) 0|
          ≤ |vec [49 / 5] 0 + (m : ℚ) * vec [10] 0|) :=
  ⟨by decide, rfl, by with_unfolding_all decide, by with_unfolding_all decide,
    (minimum_image_minimal 1 (fun _ => true) (vec [10]) (vec [49 / 5]) 0 (by decide) rfl
      (by with_unfolding_all decide)).1⟩

/-! ### The wrap of the neighbour coordinate -/

theorem edge_read : readEnd 2 1 (vec [-1]) edgeLines = some edgeState := rfl

theorem edge_run :
    elastic_network 2 1 10 (vec [-1]) (some edgeLines) 1 0 = some ⟨1, [⟨1, 0, 10, 1 / 4⟩]⟩ := by
  with_unfolding_all decide

theorem neighbourCoord_closed_form (n c : Nat → Int) (nm : Nm) (k : Nat) :
    neighbourCoord n c nm k =
      if c k + nm.get k < 0 then c k + nm.get k + n k
      else if n k ≤ c k + nm.get k then c k + nm.get k - n k
      else c k + nm.get k := by
  unfold neighbourCoord
  simp only []
  split_ifs <;> omega

/-- C14 (open axes and the neighbour wrap), counterexample to the skip rule:
on `edgeLines` (one open axis, `Rc = 1`, `n = 4`) the
particle `i = 1` has cell coordinate 3; for the offset `+1` the neighbour
coordinate is `4 = n[0]`, outside `[0, n[0])`, which the specification's rule
skips; the code wraps it to cell 0, walks that chain and writes the bond
`(1, 0, 10, 0.5)` (squared distance `1/4`), the only record of the run. -/
theorem open_axis_is_wrapped :
    edgeGrid.periodicL 0 = false ∧
      (⟨1, -1, -1⟩ : Nm) ∈ nmSeq (3 ^ 1) nmStart ∧
      cellCoord 1 edgeGrid.L edgeGrid.cellsize edgeGrid.pos 1 0 + (⟨1, -1, -1⟩ : Nm).get 0
        = edgeGrid.n 0 ∧
      specNeighbourCoord edgeGrid.periodicL edgeGrid.n
        (cellCoord 1 edgeGrid.L edgeGrid.cellsize edgeGrid.pos 1) ⟨1, -1, -1⟩ 0 = none ∧
      neighbourCoord edgeGrid.n (cellCoord 1 edgeGrid.L edgeGrid.cellsize edgeGrid.pos 1)
        ⟨1, -1, -1⟩ 0 = 0 ∧
      (walkChain edgeGrid edgeBuckets.llist 1 (2 + 1)
          (edgeBuckets.hlist (neighbourIndex edgeGrid 1 ⟨1, -1, -1⟩)) ⟨[], 0⟩).map Emit.out
        = some [⟨1, 0, 10, 1 / 4⟩] ∧
      elastic_network 2 1 10 (vec [-1]) (some edgeLines) 1 0
        = some ⟨1, [⟨1, 0, 10, 1 / 4⟩]⟩ := by
  refine ⟨?_, ?_, ?_, ?_, ?_, ?_, ?_⟩ <;> with_unfolding_all decide

/-- C14 (open axes and the neighbour wrap), the property that holds: the
neighbour coordinate `cellcoord[k] + nm[k]` is wrapped
on every axis by the same rule, in which the periodic flag plays no part (add
`n[k]` when negative, subtract `n[k]` when `≥ n[k]`): two grids that differ
only in their periodic flags give every neighbour the same cell index; and no
offset is skipped: the output of a completed run is, particle by particle, the
concatenation over all `3^dim` offsets of the bonds found in the chain of the
wrapped neighbour cell. -/
theorem neighbour_wrap_on_every_axis (g : Grid) (per : Nat → Bool) (i : Nat) (nm : Nm) (k : Nat) :
    (neighbourCoord g.n (cellCoord g.dim g.L g.cellsize g.pos i) nm k =
        if cellCoord g.dim g.L g.cellsize g.pos i k + nm.get k < 0 then
          cellCoord g.dim g.L g.cellsize g.pos i k + nm.get k + g.n k
        else if g.n k ≤ cellCoord g.dim g.L g.cellsize g.pos i k + nm.get k then
          cellCoord g.dim g.L g.cellsize g.pos i k + nm.get k - g.n k
        else cellCoord g.dim g.L g.cellsize g.pos i k + nm.get k) ∧
      neighbourIndex { g with periodicL := per } i nm = neighbourIndex g i nm ∧
      ∀ (N : Nat) (Rc K : ℚ) (L : Nat → ℚ) (positions : Option (List (List ℚ))) (dim : Nat)
        (offset : Int) (res : Result),
        elastic_network N Rc K L positions dim offset = some res → res.ret ≠ -1 →
        ∃ lines st, positions = some lines ∧ readEnd N dim L lines = some st ∧
          res.out = (List.range N).flatMap fun a =>
            (nmSeq (3 ^ dim) nmStart).flatMap fun x =>
              (members (cellOfBuild (gridOf N Rc K L dim offset st)) (List.range N)
                (neighbourIndex (gridOf N Rc K L dim offset st) a x)).flatMap
                (pairBond (gridOf N Rc K L dim offset st) a) := by
  refine ⟨neighbourCoord_closed_form _ _ _ _, rfl, ?_⟩
  intro N Rc K L positions dim offset res h hok
  rcases run_cases N Rc K L positions dim offset res h with h1 | ⟨lines, st, hp, hst, _, _, _, hres⟩
  · rw [h1] at hok
    exact absurd rfl hok
  · refine ⟨lines, st, hp, hst, ?_⟩
    rw [hres]
    rfl

/-- C14 on `edgeLines`: the neighbour `+1` of particle 1 on the
open axis is cell 0, with the flag set or not, and the run's output is the
concatenation over the three offsets. -/
theorem neighbour_wrap_on_every_axis_witness :
    neighbourIndex { edgeGrid with periodicL := fun _ => true } 1 ⟨1, -1, -1⟩
        = neighbourIndex edgeGrid 1 ⟨1, -1, -1⟩ ∧
      neighbourIndex edgeGrid 1 ⟨1, -1, -1⟩ = 0 ∧
      ∃ lines st, some edgeLines = some lines ∧ readEnd 2 1 (vec [-1]) lines = some st ∧
        (⟨1, [⟨1, 0, 10, 1 / 4⟩]⟩ : Result).out = (List.range 2).flatMap fun a =>
          (nmSeq (3 ^ 1) nmStart).flatMap fun x =>
            (members (cellOfBuild (gridOf 2 1 10 (vec [-1]) 1 0 st)) (List.range 2)
              (neighbourIndex (gridOf 2 1 10 (vec [-1]) 1 0 st) a x)).flatMap
              (pairBond (gridOf 2 1 10 (vec [-1]) 1 0 st) a) :=
  ⟨(neighbour_wrap_on_every_axis edgeGrid (fun _ => true) 1 ⟨1, -1, -1⟩ 0).2.1,
    by with_unfolding_all decide,
    (neighbour_wrap_on_every_axis edgeGrid (fun _ => true) 1 ⟨1, -1, -1⟩ 0).2.2 2 1 10 (vec [-1])
      (some edgeLines) 1 0 _ edge_run (by decide)⟩

/-! ### The builder's and the enumerator's cell coordinate -/

theorem cellCoordBuild_cases (dim : Nat) (n : Nat → Int) (L cellsize pos : Nat → ℚ) (i k : Nat) :
    (cellCoord dim L cellsize pos i k ≠ n k →
        cellCoordBuild dim n L cellsize pos i k = cellCoord dim L cellsize pos i k) ∧
      (cellCoord dim L cellsize pos i k = n k → cellCoordBuild dim n L cellsize pos i k = 0) := by
  unfold cellCoordBuild
  constructor
  · intro h; rw [if_neg h]
  · intro h; rw [if_pos h]

theorem neighbourCoord_clamp (dim : Nat) (n : Nat → Int) (L cellsize pos : Nat → ℚ) (i k : Nat)
    (hn : 2 ≤ n k) (nm : Nm) (hnm : nm.get k = -1 ∨ nm.get k = 0 ∨ nm.get k = 1) :
    neighbourCoord n (cellCoord dim L cellsize pos i) nm k
      = neighbourCoord n (cellCoordBuild dim n L cellsize pos i) nm k := by
  by_cases h : cellCoord dim L cellsize pos i k = n k
  · have hb := (cellCoordBuild_cases dim n L cellsize pos i k).2 h
    rw [neighbourCoord_closed_form, neighbourCoord_closed_form, hb, h]
    rcases hnm with e | e | e <;> rw [e] <;> split_ifs <;> omega
  · have hb := (cellCoordBuild_cases dim n L cellsize pos i k).1 h
    unfold neighbourCoord
    rw [hb]

/-- C17 (builder and enumerator coordinates), counterexample to their
equality: on `edgeLines` the particle at 2 lands on
`n[0] = 4`; the builder stores it under the coordinate 0 (clamp of line 117)
while the enumerator recomputes 4 (line 138 has no clamp). -/
theorem enumerator_coordinate_not_clamped :
    cellCoordBuild 1 edgeGrid.n edgeGrid.L edgeGrid.cellsize edgeGrid.pos 0 0 = 0 ∧
      cellCoord 1 edgeGrid.L edgeGrid.cellsize edgeGrid.pos 0 0 = 4 ∧
      edgeGrid.n 0 = 4 ∧
      ¬ (cellCoord 1 edgeGrid.L edgeGrid.cellsize edgeGrid.pos 0 0
        = cellCoordBuild 1 edgeGrid.n edgeGrid.L edgeGrid.cellsize edgeGrid.pos 0 0) := by
  refine ⟨?_, ?_, ?_, ?_⟩ <;> with_unfolding_all decide

/-- C17 (builder and enumerator coordinates), the property that holds: the
enumerator recomputes `floor((p + L/2)/cellsize)`
without the clamp.  Its coordinate equals the builder's on every axis where it
is not exactly `n[k]`; where it is exactly `n[k]` the builder has stored 0 and
the enumerator keeps `n[k]`, and then (for `n[k] ≥ 2`) the wrap of lines
148-149 gives, for each offset `-1, 0, +1`, the same neighbour coordinate as
from the builder's coordinate. -/
theorem build_query_cell_agreement (dim : Nat) (n : Nat → Int) (L cellsize pos : Nat → ℚ)
    (i k : Nat) (hn : 2 ≤ n k) :
    (cellCoord dim L cellsize pos i k ≠ n k →
        cellCoord dim L cellsize pos i k = cellCoordBuild dim n L cellsize pos i k) ∧
      (cellCoord dim L cellsize pos i k = n k → cellCoordBuild dim n L cellsize pos i k = 0) ∧
      ∀ nm : Nm, (nm.get k = -1 ∨ nm.get k = 0 ∨ nm.get k = 1) →
        neighbourCoord n (cellCoord dim L cellsize pos i) nm k
          = neighbourCoord n (cellCoordBuild dim n L cellsize pos i) nm k :=
  ⟨fun h => ((cellCoordBuild_cases dim n L cellsize pos i k).1 h).symm,
    (cellCoordBuild_cases dim n L cellsize pos i k).2,
    fun nm hnm => neighbourCoord_clamp dim n L cellsize pos i k hn nm hnm⟩

/-- C17 on the particle at 2 of `edgeLines`: coordinate 4 for the
enumerator, 0 for the builder, and the neighbour for the offset 0 is cell 0
from either. -/
theorem build_query_cell_agreement_witness :
    (2 : Int) ≤ edgeGrid.n 0 ∧
      cellCoord 1 edgeGrid.L edgeGrid.cellsize edgeGrid.pos 0 0 = edgeGrid.n 0 ∧
      cellCoordBuild 1 edgeGrid.n edgeGrid.L edgeGrid.cellsize edgeGrid.pos 0 0 = 0 ∧
      neighbourCoord edgeGrid.n (cellCoord 1 edgeGrid.L edgeGrid.cellsize edgeGrid.pos 0)
          ⟨0, -1, -1⟩ 0
        = neighbourCoord edgeGrid.n
          (cellCoordBuild 1 edgeGrid.n edgeGrid.L edgeGrid.cellsize edgeGrid.pos 0) ⟨0, -1, -1⟩ 0 :=
  ⟨by with_unfolding_all decide, by with_unfolding_all decide,
    (build_query_cell_agreement 1 edgeGrid.n edgeGrid.L edgeGrid.cellsize edgeGrid.pos 0 0
      (by with_unfolding_all decide)).2.1 (by with_unfolding_all decide),
    (build_query_cell_agreement 1 edgeGrid.n edgeGrid.L edgeGrid.cellsize edgeGrid.pos 0 0
      (by with_unfolding_all decide)).2.2 ⟨0, -1, -1⟩ (Or.inr (Or.inl rfl))⟩

/-! ### Completeness on the closed box -/

theorem neighbourCoord_eq_wide (n c : Nat → Int) (nm : Nm) (k : Nat) (t m : Int)
    (h : c k + nm.get k = t - m * n k) (ht0 : 0 ≤ t) (ht1 : t < n k)
    (hx0 : -(n k) ≤ c k + nm.get k) (hx1 : c k + nm.get k < 2 * n k) :
    neighbourCoord n c nm k = t := by
  have hn : 0 < n k := lt_of_le_of_lt ht0 ht1
  have hm1 : m ≤ 1 := by
    by_contra hc
    have : 2 ≤ m := by omega
    nlinarith
  have hm2 : -1 ≤ m := by
    by_contra hc
    have : m ≤ -2 := by omega
    nlinarith
  rw [neighbourCoord_closed_form]
  have hcases : m = -1 ∨ m = 0 ∨ m = 1 := by omega
  rcases hcases with rfl | rfl | rfl
  · have hx : c k + nm.get k = t + n k := by rw [h]; ring
    rw [hx]; split_ifs <;> omega
  · have hx : c k + nm.get k = t := by rw [h]; ring
    rw [hx]; split_ifs <;> omega
  · have hx : c k + nm.get k = t - n k := by rw [h]; ring
    rw [hx]; split_ifs <;> omega

theorem neighbourCoord_range_closed (n c : Nat → Int) (nm : Nm) (k : Nat) (hn : 2 ≤ n k)
    (hc0 : 0 ≤ c k) (hc1 : c k ≤ n k) (hd : nm.get k = -1 ∨ nm.get k = 0 ∨ nm.get k = 1) :
    0 ≤ neighbourCoord n c nm k ∧ neighbourCoord n c nm k < n k := by
  rw [neighbourCoord_closed_form]
  rcases hd with h | h | h <;> rw [h] <;> split_ifs <;> constructor <;> omega

theorem gridDefined_of_inBoxClosed (g : Grid) (hdim : g.dim = 1 ∨ g.dim = 2 ∨ g.dim = 3)
    (hnc : g.ncells = ncellsOf g.n g.dim) (hg : axisOk g) (hb : inBoxClosed g) :
    gridDefined g := by
  constructor
  · intro i hi
    have hi1 : i < g.N := List.mem_range.1 hi
    exact cellOfBuild_range g hg hnc i (hb i hi1)
  · intro i hi x hx
    have hi1 : i < g.N := List.mem_range.1 hi
    unfold inRange neighbourIndex
    rw [cellIndex_eq, hnc]
    refine flatIndex_bounds _ _ _ fun k hk => ?_
    obtain ⟨h0, h1⟩ := cellCoord_range_closed g hg i k hk (hb i hi1 k hk).1 (hb i hi1 k hk).2
    have hn : 2 ≤ g.n k := by have := (hg.2 k hk).1; omega
    exact neighbourCoord_range_closed _ _ _ _ hn h0 h1 (stencil_get g.dim hdim x hx k hk)

theorem close_pair_visited_closed (g : Grid) (hdim : g.dim = 1 ∨ g.dim = 2 ∨ g.dim = 3)
    (hg : axisOk g) (hb : inBoxClosed g) (i j : Nat) (hi : i < g.N) (hj : j < g.N)
    (hclose : imageDist2 g i j ≤ g.Rc ^ 2) :
    ∃ x ∈ nmSeq (3 ^ g.dim) nmStart, cellOfBuild g j = neighbourIndex g i x := by
  have hax : ∀ k, k < g.dim → ∃ δ : Int, (δ = -1 ∨ δ = 0 ∨ δ = 1) ∧ ∀ nm : Nm, nm.get k = δ →
      neighbourCoord g.n (cellCoord g.dim g.L g.cellsize g.pos i) nm k
        = cellCoordBuild g.dim g.n g.L g.cellsize g.pos j k := by
    intro k hk
    obtain ⟨m, hm⟩ := imageDisplacement_split g i j k
    obtain ⟨hn3, hcs, hn⟩ := hg.2 k hk
    have hcs0 : 0 < g.cellsize k := lt_of_lt_of_le hg.1 hcs
    have hd1 := le_trans (imageDisplacement_le g hg.1.le i j hclose k hk) hcs
    obtain ⟨δ, hδ, hfl⟩ := axis_shift (g.L k) (g.cellsize k) (posAt g.dim g.pos i k)
      (posAt g.dim g.pos j k) _ (g.n k) m hcs0 hn hm hd1
    refine ⟨δ, hδ, fun nm hnm => ?_⟩
    obtain ⟨hi0, hi1⟩ := cellCoord_range_closed g hg i k hk (hb i hi k hk).1 (hb i hi k hk).2
    obtain ⟨hj0, hj1⟩ := cellCoord_range_closed g hg j k hk (hb j hj k hk).1 (hb j hj k hk).2
    obtain ⟨hB0, hB1⟩ := cellCoordBuild_range g hg j k hk (hb j hj k hk).1 (hb j hj k hk).2
    have hfl1 : cellCoord g.dim g.L g.cellsize g.pos i k + δ
        = cellCoord g.dim g.L g.cellsize g.pos j k - m * g.n k := hfl
    obtain ⟨hne, heq⟩ := cellCoordBuild_cases g.dim g.n g.L g.cellsize g.pos j k
    by_cases hc : cellCoord g.dim g.L g.cellsize g.pos j k = g.n k
    · have hB := heq hc
      refine neighbourCoord_eq_wide _ _ _ _ _ (m - 1) ?_ hB0 hB1 (by rw [hnm]; omega)
        (by rw [hnm]; omega)
      rw [hnm, hfl1, hB, hc]; ring
    · have hB := hne hc
      refine neighbourCoord_eq_wide _ _ _ _ _ m ?_ hB0 hB1 (by rw [hnm]; omega)
        (by rw [hnm]; omega)
      rw [hnm, hfl1, hB]
  choose! δ hδ hnb using hax
  obtain ⟨x, hx, hxk⟩ := stencil_exists g.dim hdim δ (fun k hk => hδ k hk)
  refine ⟨x, hx, ?_⟩
  unfold cellOfBuild neighbourIndex
  rw [cellIndex_eq, cellIndex_eq]
  exact flatIndex_congr _ _ _ _ fun k hk => (hnb k hk x (hxk k hk)).symm

theorem filter_pair_singleton :
    ∀ (l : List Bond) (b : Bond), l.Pairwise (fun x y => ¬ (x.i = y.i ∧ x.j = y.j)) → b ∈ l →
      l.filter (fun x => decide (x.i = b.i ∧ x.j = b.j)) = [b]
  | [], b, _, hb => absurd hb (List.not_mem_nil _)
  | x :: t, b, hp, hb => by
    obtain ⟨hx, ht⟩ := List.pairwise_cons.1 hp
    by_cases hm : x.i = b.i ∧ x.j = b.j
    · have hbt : b ∉ t := fun h => hx b h hm
      have hbx : b = x := by
        rcases List.mem_cons.1 hb with h | h
        · exact h
        · exact absurd h hbt
      subst hbx
      have hnil : t.filter (fun x => decide (x.i = b.i ∧ x.j = b.j)) = [] := by
        rw [List.filter_eq_nil_iff]
        intro y hy
        have := hx y hy
        simp only [decide_eq_true_eq]
        rintro ⟨e1, e2⟩
        exact this ⟨e1.symm, e2.symm⟩
      rw [List.filter_cons_of_pos (by simp), hnil]
    · have hbt : b ∈ t := by
        rcases List.mem_cons.1 hb with h | h
        · subst h; exact absurd ⟨rfl, rfl⟩ hm
        · exact h
      rw [List.filter_cons_of_neg (by simpa using hm)]
      exact filter_pair_singleton t b ht hbt

theorem closed_box_run (N : Nat) (Rc K : ℚ) (L : Nat → ℚ) (lines : List (List ℚ)) (dim : Nat)
    (offset : Int) (st : ReadState) (hdim : dim = 1 ∨ dim = 2 ∨ dim = 3) (hRc : 0 < Rc)
    (hrows : N ≤ (lines.filter (validRow dim)).length)
    (hread : readEnd N dim L lines = some st)
    (hbox : inBoxClosed (gridOf N Rc K L dim offset st)) :
    elastic_network N Rc K L (some lines) dim offset
        = some ⟨((bondList (gridOf N Rc K L dim offset st)).length : Int),
            bondList (gridOf N Rc K L dim offset st)⟩ ∧
      ∀ i j, j < i → i < N → imageDist2 (gridOf N Rc K L dim offset st) i j ≤ Rc ^ 2 →
        (⟨offset + (i : Nat), offset + (j : Nat), K,
          imageDist2 (gridOf N Rc K L dim offset st) i j⟩ : Bond)
          ∈ bondList (gridOf N Rc K L dim offset st) := by
  have hN : N ≤ st.i :=
    readLoop_full N dim _ lines (readStart L) st hread (by simpa [readStart] using hrows)
  have hg := gridOf_axisOk N Rc K L dim offset st hRc
  have hdef := gridDefined_of_inBoxClosed (gridOf N Rc K L dim offset st) hdim rfl hg hbox
  have hrc : ¬ (0 < dim ∧ Rc = 0) := fun h => (ne_of_gt hRc) h.2
  refine ⟨(elastic_network_iff N Rc K L lines dim offset _).2
    (Or.inr ⟨st, hread, Or.inr ⟨hN, hrc, hdef, rfl⟩⟩), ?_⟩
  have hd3 : (gridOf N Rc K L dim offset st).dim ≤ 3 := by
    show dim ≤ 3
    rcases hdim with rfl | rfl | rfl <;> omega
  intro i j hji hi hclose
  have hj : j < N := lt_trans hji hi
  refine mem_bondList.2 ⟨i, j, hji, hi, hj,
    close_pair_visited_closed _ hdim hg hbox i j hi hj hclose, ?_, ?_⟩
  · rw [pairDist2_eq _ i j hd3]
    simp only [withinCutoff, decide_eq_true_eq]
    have hsq : Rc ^ 2 = Rc * Rc := by ring
    exact ⟨hRc.le, le_of_le_of_eq hclose hsq⟩
  · simp only [bondOf]
    rw [pairDist2_eq _ i j hd3]
    rfl

/-- The upper box edge in exact arithmetic (`elastic_network`, no rounding, the
stores of line 167 beyond `rij[dim]` without effect).  For `dim ∈ {1,2,3}` and
`Rc > 0`, when the position file holds at least `N` valid rows and every stored
coordinate satisfies `-L[k]/2 ≤ p ≤ L[k]/2` (a particle may sit at exactly
`+L[k]/2`, where the builder stores it in cell 0), the run returns a result in
which every pair `i ≠ j` within `Rc` has exactly one record: the records of
the output for the pair are the single
`(offset + max i j, offset + min i j, K, r²)`. -/
theorem closed_box_pairs_once_exact (N : Nat) (Rc K : ℚ) (L : Nat → ℚ) (lines : List (List ℚ))
    (dim : Nat) (offset : Int) (st : ReadState) (hdim : dim = 1 ∨ dim = 2 ∨ dim = 3)
    (hRc : 0 < Rc) (hrows : N ≤ (lines.filter (validRow dim)).length)
    (hread : readEnd N dim L lines = some st)
    (hbox : inBoxClosed (gridOf N Rc K L dim offset st)) :
    ∃ res, elastic_network N Rc K L (some lines) dim offset = some res ∧
      ∀ i j, i < N → j < N → i ≠ j →
        imageDist2 (gridOf N Rc K L dim offset st) i j ≤ Rc ^ 2 →
        res.out.filter (fun b => decide
            (b.i = offset + (max i j : Nat) ∧ b.j = offset + (min i j : Nat)))
          = [⟨offset + (max i j : Nat), offset + (min i j : Nat), K,
              imageDist2 (gridOf N Rc K L dim offset st) i j⟩] := by
  obtain ⟨hrun, hmem⟩ :=
    closed_box_run N Rc K L lines dim offset st hdim hRc hrows hread hbox
  have hg := gridOf_axisOk N Rc K L dim offset st hRc
  have hp := bondList_pairwise (gridOf N Rc K L dim offset st) hdim (fun k hk => (hg.2 k hk).1)
  refine ⟨_, hrun, ?_⟩
  intro i j hi hj hne hclose
  show (bondList (gridOf N Rc K L dim offset st)).filter _ = _
  rcases Nat.lt_or_gt_of_ne hne with h | h
  · rw [max_eq_right h.le, min_eq_left h.le, imageDist2_symm]
    exact filter_pair_singleton _ _ hp
      (hmem j i h hj (by rw [imageDist2_symm]; exact hclose))
  · rw [max_eq_left h.le, min_eq_right h.le]
    exact filter_pair_singleton _ _ hp (hmem i j h hi hclose)

theorem edge_inBoxClosed : inBoxClosed (gridOf 2 1 10 (vec [-1]) 1 0 edgeState) := by
  intro i hi k hk
  have hi2 : i < 2 := hi
  have hk1 : k < 1 := hk
  obtain rfl : k = 0 := by omega
  have : i = 0 ∨ i = 1 := by omega
  rcases this with rfl | rfl <;> with_unfolding_all decide

/-- In exact arithmetic on `edgeLines` (`Rc = 1`): the particle at 2 sits at exactly `+L/2`
(`L = 4`) and is stored in cell 0, the particle at 1.5 is in cell `n - 1 = 3`;
the run writes the single record `(1, 0, 10, 0.5)` for the pair. -/
theorem closed_box_pairs_once_exact_witness :
    posAt 1 edgeState.pos 0 0 = (gridOf 2 1 10 (vec [-1]) 1 0 edgeState).L 0 / 2 ∧
      cellOfBuild (gridOf 2 1 10 (vec [-1]) 1 0 edgeState) 0 = 0 ∧
      cellOfBuild (gridOf 2 1 10 (vec [-1]) 1 0 edgeState) 1 = 3 ∧
      elastic_network 2 1 10 (vec [-1]) (some edgeLines) 1 0
        = some ⟨1, [⟨1, 0, 10, 1 / 4⟩]⟩ ∧
      ∃ res, elastic_network 2 1 10 (vec [-1]) (some edgeLines) 1 0 = some res ∧
        ∀ i j, i < 2 → j < 2 → i ≠ j →
          imageDist2 (gridOf 2 1 10 (vec [-1]) 1 0 edgeState) i j ≤ 1 ^ 2 →
          res.out.filter (fun b => decide
              (b.i = (0 : Int) + (max i j : Nat) ∧ b.j = (0 : Int) + (min i j : Nat)))
            = [⟨(0 : Int) + (max i j : Nat), (0 : Int) + (min i j : Nat), 10,
                imageDist2 (gridOf 2 1 10 (vec [-1]) 1 0 edgeState) i j⟩] :=
  ⟨by with_unfolding_all decide, by with_unfolding_all decide, by with_unfolding_all decide,
    edge_run,
    closed_box_pairs_once_exact 2 1 10 (vec [-1]) edgeLines 1 0 edgeState (Or.inl rfl) (by norm_num)
      (by decide) edge_read edge_inBoxClosed⟩

/-! ### Chains decrease, walks end -/

theorem members_sorted (cellOf : Nat → Int) (N : Nat) (c : Int) :
    (members cellOf (List.range N) c).Pairwise (fun a b => b < a) := by
  unfold members
  rw [List.pairwise_reverse]
  exact (List.pairwise_lt_range N).filter _

theorem chain_next (ll : Int → Int) :
    ∀ (xs : List Nat) (h : Int), IsChain ll h xs → xs.Pairwise (fun a b => b < a) →
      ∀ x ∈ xs, ll (x : Int) = -1 ∨ (0 ≤ ll (x : Int) ∧ ll (x : Int) < (x : Int))
  | [], _, _, _ => fun x hx => absurd hx (List.not_mem_nil _)
  | a :: t, h, hc, hp => by
    obtain ⟨_, hrest⟩ := hc
    obtain ⟨ha, ht⟩ := List.pairwise_cons.1 hp
    intro x hx
    rcases List.mem_cons.1 hx with rfl | hxt
    · match t, hrest, ha with
      | [], hrest, _ => exact Or.inl hrest
      | y :: _, hrest, ha =>
        have hy : y < x := ha y (by simp)
        right
        rw [hrest.1]
        omega
    · exact chain_next ll t _ hrest ht x hxt

/-- C19 (chain walks terminate).  After the build loop, `llist[i]` is `-1` or
an index strictly smaller than `i` for every particle `i < N`; the chain from
each `hlist[c]` is strictly decreasing in the particle index and has at most
`N` members, so the `while(j >= 0)` walk of the enumerator ends (fuel `N + 1`
is never used up); and the whole enumeration returns whenever its `hlist`
accesses are in range. -/
theorem chain_walks_terminate (cellOf : Nat → Int) (ncells : Int) (N : Nat) (b : Buckets)
    (hb : buildLoop cellOf ncells (List.range N) emptyBuckets = some b) :
    (∀ i : Nat, i < N →
        b.llist (i : Int) = -1 ∨ (0 ≤ b.llist (i : Int) ∧ b.llist (i : Int) < (i : Int))) ∧
      (∀ c, ∃ xs : List Nat, chainWalk b.llist (N + 1) (b.hlist c) = some (xs.map Int.ofNat) ∧
        xs.Pairwise (fun x y => y < x) ∧ xs.length ≤ N) ∧
      (∀ (g : Grid) (i : Nat) (c : Int) (st : Emit),
        ∃ st1, walkChain g b.llist i (N + 1) (b.hlist c) st = some st1) ∧
      (∀ (g : Grid) (st : Emit), g.N = N →
        (∀ i ∈ List.range N, ∀ x ∈ nmSeq (3 ^ g.dim) nmStart,
          0 ≤ neighbourIndex g i x ∧ neighbourIndex g i x < g.ncells) →
        ∃ e, particleLoop g b (List.range N) st = some e) := by
  have hch : ∀ c, IsChain b.llist (b.hlist c) (members cellOf (List.range N) c) := by
    have := buildLoop_chain cellOf ncells (List.range N) [] emptyBuckets b
      (by simpa using List.nodup_range N) (emptyBuckets_chain cellOf) hb
    simpa using this
  have hlen := members_length_le cellOf N
  refine ⟨?_, ?_, ?_, ?_⟩
  · intro i hi
    exact chain_next b.llist _ _ (hch (cellOf i)) (members_sorted cellOf N _) i
      (mem_members.2 ⟨List.mem_range.2 hi, rfl⟩)
  · intro c
    exact ⟨_, chainWalk_chain b.llist _ (N + 1) _ (hch c) (Nat.lt_succ_of_le (hlen c)),
      members_sorted cellOf N c, hlen c⟩
  · intro g i c st
    exact ⟨_, walkChain_chain g b.llist i _ (N + 1) _ st (hch c) (Nat.lt_succ_of_le (hlen c))⟩
  · intro g st hgN hidx
    subst hgN
    exact ⟨_, (particleLoop_iff g b _ hch hlen (List.range g.N) st _).2 ⟨hidx, rfl⟩⟩

/-- C19 on three particles in two cells (particle `i` in cell `i mod 2`):
`llist = [-1, -1, 0]`, the chain of cell 0 is 2, 0. -/
theorem chain_walks_terminate_witness :
    buildLoop (fun i => ((i % 2 : Nat) : Int)) 2 (List.range 3) emptyBuckets = some parityBuckets ∧
      parityBuckets.llist 2 = 0 ∧ chainWalk parityBuckets.llist (3 + 1) (parityBuckets.hlist 0)
        = some [2, 0] ∧
      (∀ i : Nat, i < 3 → parityBuckets.llist (i : Int) = -1 ∨
        (0 ≤ parityBuckets.llist (i : Int) ∧ parityBuckets.llist (i : Int) < (i : Int))) ∧
      (∀ c, ∃ xs : List Nat,
        chainWalk parityBuckets.llist (3 + 1) (parityBuckets.hlist c) = some (xs.map Int.ofNat) ∧
        xs.Pairwise (fun x y => y < x) ∧ xs.length ≤ 3) :=
  ⟨rfl, by decide, by decide,
    (chain_walks_terminate (fun i => ((i % 2 : Nat) : Int)) 2 3 parityBuckets rfl).1,
    (chain_walks_terminate (fun i => ((i % 2 : Nat) : Int)) 2 3 parityBuckets rfl).2.1⟩

/-! ### Runs in binary32 at the rounding boundary

The runs below evaluate `elastic_networkF`, the function with its `float` and
`double` operations rounded.  The `float` product `3*Rc` of line 89 can be
less than `3·Rc`, and the `float` quotient of line 103 can round up to the next
integer. -/

section BinaryRuns

set_option maxRecDepth 3000

theorem narrow_read : readEndF 2 3 (vec [-1, -1, -1]) narrowLines = some narrowState := rfl

theorem miss_read : readEndF 2 1 (vec [1 / 2]) missLines = some missState := rfl

theorem wrap_read : readEndF 2 1 (vec [3 / 2]) [[-3 / 4], [pWrap]] = some wrapState := rfl

theorem upperEdge_read :
    readEndF 2 3 (vec [-1, -1, -1]) upperEdgeLines = some upperEdgeState := rfl

/-- C1 (completeness), at the input `D = 1`, `N = 2`, `L = [0.5]` (periodic),
`Rc = 0.1f`, positions `-6710887/2^27` and `3355443/2^26` (both `float`
values): both coordinates lie in `[-L/2, L/2)`, the two particles are exactly
`Rc` apart, yet the run returns 0 and writes no record.  The `float` quotient
`0.5/0.1f` rounds to `5`, so `n[0] = 5` (the exact floor is 4); the particles
are put in cells 1 and 3, which are not neighbours, and the pair is never
examined. -/
theorem rounding_skips_pair_at_cutoff :
    readEndF 2 1 (vec [1 / 2]) missLines = some missState ∧
      missGrid.L 0 = 1 / 2 ∧
      inBox missGrid ∧
      posAt 1 missState.pos 1 0 - posAt 1 missState.pos 0 0 = rcMiss ∧
      imageDist2 missGrid 1 0 ≤ rcMiss ^ 2 ∧
      missGrid.n 0 = 5 ∧
      cellCount rcMiss (enforceMin 1 rcMiss missState.L) 0 = 4 ∧
      cellOfBuildF missGrid 0 = 1 ∧ cellOfBuildF missGrid 1 = 3 ∧
      elastic_networkF 2 rcMiss 10 (vec [1 / 2]) (some missLines) 1 0 = some ⟨0, []⟩ := by
  refine ⟨rfl, ?_, ?_, le_antisymm ?_ ?_, ?_, ?_, ?_, ?_, ?_, ?_⟩
  · with_unfolding_all decide
  · unfold inBox
    with_unfolding_all decide
  all_goals with_unfolding_all decide

/-- C2 (uniqueness), at the input `D = 3`, `N = 2`, `L = [-1, -1, -1]` (open),
`Rc = 0.22f`, `K = 10`, positions `(-1/16, 0, 0)` and `(1/16, 0, 0)`: the run
completes, returns 2 and writes the record `(1, 0, 10, 0.125)` twice (squared
distance `1/64`).  Every axis has two cells, so the neighbour offsets `-1` and
`+1` of a cell wrap to the same cell and its chain is walked twice. -/
theorem narrow_box_writes_pair_twice :
    narrowGrid.n 0 = 2 ∧ narrowGrid.n 1 = 2 ∧ narrowGrid.n 2 = 2 ∧
      cellOfBuildF narrowGrid 0 = 6 ∧ cellOfBuildF narrowGrid 1 = 7 ∧
      elastic_networkF 2 rcNarrow 10 (vec [-1, -1, -1]) (some narrowLines) 3 0
        = some ⟨2, [⟨1, 0, 10, 1 / 64⟩, ⟨1, 0, 10, 1 / 64⟩]⟩ ∧
      ¬ ([⟨1, 0, 10, 1 / 64⟩, ⟨1, 0, 10, 1 / 64⟩] : List Bond).Pairwise
        (fun b c => ¬ (b.i = c.i ∧ b.j = c.j) ∧ ¬ (b.i = c.j ∧ b.j = c.i)) := by
  refine ⟨?_, ?_, ?_, ?_, ?_, ?_, ?_⟩ <;> with_unfolding_all decide

/-- C4 (periodicity in one dimension), at the input `D = 1`, `N = 2`,
`L = [1.5]` (periodic), `Rc = 0.3f`, positions `-0.75` and
`pWrap = 7549747/2^24`: `|p0 - p1| > Rc`, `L ≥ 3·Rc`, both coordinates lie in
`[-L/2, L/2)` and `L - |p0 - p1| ≤ Rc`, yet the run returns 0 and writes no
record.  The `float` quotient `1.5/0.3f` rounds to `5`, so `n[0] = 5` (the
exact floor is 4); the particles are in cells 0 and 3, which are not
neighbours on a ring of five cells. -/
theorem rounding_skips_periodic_pair :
    rcWrap < |(-3 / 4 : ℚ) - pWrap| ∧ 3 * rcWrap ≤ 3 / 2 ∧
      ((-(3 / 2) / 2 : ℚ) ≤ -3 / 4 ∧ (-3 / 4 : ℚ) < 3 / 2 / 2) ∧
      ((-(3 / 2) / 2 : ℚ) ≤ pWrap ∧ pWrap < 3 / 2 / 2) ∧
      3 / 2 - |(-3 / 4 : ℚ) - pWrap| ≤ rcWrap ∧
      readEndF 2 1 (vec [3 / 2]) [[-3 / 4], [pWrap]] = some wrapState ∧
      wrapGrid.L 0 = 3 / 2 ∧ wrapGrid.n 0 = 5 ∧
      cellCount rcWrap (enforceMin 1 rcWrap wrapState.L) 0 = 4 ∧
      cellOfBuildF wrapGrid 0 = 0 ∧ cellOfBuildF wrapGrid 1 = 3 ∧
      elastic_networkF 2 rcWrap 10 (vec [3 / 2]) (some [[-3 / 4], [pWrap]]) 1 0
        = some ⟨0, []⟩ := by
  refine ⟨?_, ?_, ⟨?_, ?_⟩, ⟨?_, ?_⟩, ?_, rfl, ?_, ?_, ?_, ?_, ?_, ?_⟩ <;>
    with_unfolding_all decide

/-- C6 (grid invariant), at the input `D = 3`, `N = 2`, `L = [-1, -1, -1]`,
`Rc = 0.22f = 7381975/2^25`, positions `(-1/16, 0, 0)` and `(1/16, 0, 0)`:
the reading loop leaves `L[0] = 0.125`, line 89 replaces it by the `float`
product `3*Rc`, which is less than `3·Rc`, and line 103 gives `n[k] = 2` on
every axis.  In exact arithmetic the same input gives `n[0] = 3`. -/
theorem rounded_box_below_three_cutoffs :
    (0 : ℚ) < rcNarrow ∧ rcNarrow.num = 7381975 ∧ rcNarrow.den = 33554432 ∧
      readEndF 2 3 (vec [-1, -1, -1]) narrowLines = some narrowState ∧
      narrowState.L 0 = 1 / 8 ∧
      enforceMinF 3 rcNarrow narrowState.L 0 < 3 * rcNarrow ∧
      cellCountF rcNarrow (enforceMinF 3 rcNarrow narrowState.L) 0 = 2 ∧
      cellCountF rcNarrow (enforceMinF 3 rcNarrow narrowState.L) 1 = 2 ∧
      cellCountF rcNarrow (enforceMinF 3 rcNarrow narrowState.L) 2 = 2 ∧
      cellCount rcNarrow (enforceMin 3 rcNarrow narrowState.L) 0 = 3 := by
  refine ⟨?_, ?_, ?_, rfl, ?_, ?_, ?_, ?_, ?_, ?_⟩ <;> with_unfolding_all decide

/-- C18 (completeness survives the upper box edge), at the input `D = 3`,
`N = 2`, `L = [-1, -1, -1]` (open), `Rc = 0.22f`, `K = 10`, positions
`(5536481/2^24, 0, 0)` and `(3439329/2^24, 0, 0)`: the box length of the first
axis is inferred from the data as twice the first coordinate, so particle 0
sits at exactly `+L[0]/2` and is clamped to cell coordinate 0 there; every
coordinate satisfies `-L[k]/2 ≤ p ≤ L[k]/2` and the pair is `0.125 ≤ Rc`
apart, yet the run writes its record `(1, 0, 10, 0.125)` twice, not once:
every axis has two cells. -/
theorem upper_edge_pair_written_twice :
    readEndF 2 3 (vec [-1, -1, -1]) upperEdgeLines = some upperEdgeState ∧
      upperEdgeState.L 0 = 2 * posAt 3 upperEdgeState.pos 0 0 ∧
      upperEdgeGrid.L 0 = upperEdgeState.L 0 ∧
      posAt 3 upperEdgeState.pos 0 0 = upperEdgeGrid.L 0 / 2 ∧
      inBoxClosed upperEdgeGrid ∧
      imageDist2 upperEdgeGrid 1 0 ≤ rcNarrow ^ 2 ∧
      upperEdgeGrid.n 0 = 2 ∧
      cellCoordF 3 upperEdgeGrid.L upperEdgeGrid.cellsize upperEdgeGrid.pos 0 0 = 2 ∧
      cellCoordBuildF 3 upperEdgeGrid.n upperEdgeGrid.L upperEdgeGrid.cellsize
        upperEdgeGrid.pos 0 0 = 0 ∧
      cellOfBuildF upperEdgeGrid 0 = 6 ∧ cellOfBuildF upperEdgeGrid 1 = 7 ∧
      elastic_networkF 2 rcNarrow 10 (vec [-1, -1, -1]) (some upperEdgeLines) 3 0
        = some ⟨2, [⟨1, 0, 10, 1 / 64⟩, ⟨1, 0, 10, 1 / 64⟩]⟩ ∧
      ([⟨1, 0, 10, 1 / 64⟩, ⟨1, 0, 10, 1 / 64⟩] : List Bond).filter
          (fun b => decide (b.i = (0 : Int) + (max 1 0 : Nat) ∧
            b.j = (0 : Int) + (min 1 0 : Nat)))
        = [⟨1, 0, 10, 1 / 64⟩, ⟨1, 0, 10, 1 / 64⟩] := by
  refine ⟨rfl, le_antisymm ?_ ?_, le_antisymm ?_ ?_, le_antisymm ?_ ?_, ?box, ?_, ?_, ?_, ?_,
    ?_, ?_, ?_, ?_⟩
  case box =>
    unfold inBoxClosed
    with_unfolding_all decide
  all_goals with_unfolding_all decide

end BinaryRuns

end ElasticNetwork
